import Mathlib

/-!
Verification of the mcp-memory server against its specification.

This file gives a shallow embedding, in Lean 4, of the parts of the
TypeScript source that the specification's claims are about:

* `src/services/secrets-detector.ts` — detection dedup and admission policy;
* `src/services/qdrant-client.ts` — filter building, upsert defaulting,
  hybrid RRF fusion, delete/get/list/count against a modelled vector store;
* `src/services/embedding-service.ts` — the LRU cache, statistics and
  embedding validation;
* `src/tools/memory-tools.ts` — the store / get / delete tool handlers.

Conventions of the embedding:

* JavaScript numbers used as counters, ranks and scores are modelled as
  `Nat` / `Rat`; ISO-8601 timestamps are modelled as abstract instants
  (`Nat`), since ISO-8601 UTC strings compare lexicographically exactly as
  the instants they denote compare chronologically.
* The regex match-collection phase of the secrets detector is not expanded
  pattern by pattern; instead every function downstream of it is
  parametrised by the list of raw matches it collects, so theorems
  quantify over all possible match lists (hence over all input texts).
* The external vector database (Qdrant) is modelled as a list of points;
  its documented retrieve / delete / scroll / filter semantics are embedded
  directly where a claim needs them.
* Fire-and-forget access tracking, logging, retries and wall-clock timing
  metadata are not modelled; no claim below depends on them.
-/

/-! ## Secrets detector (`src/services/secrets-detector.ts`) -/

/-- Confidence level attached to each secret pattern. -/
inductive Confidence where
  | high
  | medium
  | low
deriving DecidableEq, Repr

/-- `CONFIDENCE_ORDER` — confidence ordering for deduplication. -/
def CONFIDENCE_ORDER : Confidence → Nat
  | .high => 3
  | .medium => 2
  | .low => 1

/-- `MEDIUM_CONFIDENCE_BLOCK_THRESHOLD` — number of distinct
medium-confidence detections required to block storage (3 as shipped). -/
def MEDIUM_CONFIDENCE_BLOCK_THRESHOLD : Nat := 3

/-- One detected secret.  `location.start` / `location.end` of the source are
flattened into the fields `start` / `stop` (`end` is a Lean keyword); both
bounds are inclusive, `stop = start + matchLength`.  The `context` string of
the source (a redacted excerpt) is not modelled; no claim inspects it. -/
structure DetectedSecret where
  type : String
  pattern : String
  start : Nat
  stop : Nat
  confidence : Confidence
deriving DecidableEq, Repr

/-- The overlap test of `detectSecrets`: the new match `secret` overlaps
`existing` when either endpoint of `secret` lies inclusively within
`existing`'s range. -/
def overlapsExisting (secret existing : DetectedSecret) : Bool :=
  (existing.start ≤ secret.start && secret.start ≤ existing.stop) ||
  (existing.start ≤ secret.stop && secret.stop ≤ existing.stop)

/-- Symmetric overlap of two detections, as the specification words it: some
endpoint of one lies inclusively within the other's range. -/
def rangesOverlap (a b : DetectedSecret) : Bool :=
  overlapsExisting a b || overlapsExisting b a

/-- One step of the deduplication loop of `detectSecrets`: find the first
already-kept detection the new one overlaps; if none, append; otherwise
replace it when the new detection has strictly higher confidence. -/
def dedupStep (deduplicated : List DetectedSecret) (secret : DetectedSecret) :
    List DetectedSecret :=
  match deduplicated.findIdx? (fun existing => overlapsExisting secret existing) with
  | none => deduplicated ++ [secret]
  | some i =>
    match deduplicated[i]? with
    | none => deduplicated
    | some overlapping =>
      if CONFIDENCE_ORDER overlapping.confidence < CONFIDENCE_ORDER secret.confidence then
        deduplicated.set i secret
      else
        deduplicated

/-- The deduplication loop of `detectSecrets` over the sorted match list. -/
def deduplicateSecrets (secrets : List DetectedSecret) : List DetectedSecret :=
  secrets.foldl dedupStep []

/-- `secrets.sort((a, b) => a.location.start - b.location.start)` — a stable
sort by start offset. -/
def sortByStart (secrets : List DetectedSecret) : List DetectedSecret :=
  secrets.mergeSort (fun a b => decide (a.start ≤ b.start))

/-- Result of `detectSecrets`.  The `sanitized` string of the source is not
modelled; no claim inspects it. -/
structure SecretDetection where
  found : Bool
  secrets : List DetectedSecret
deriving DecidableEq, Repr

/-- `detectSecrets`, parametrised by the raw matches collected from the
pattern list in the regex phase: sort by location, then deduplicate
overlaps. -/
def detectSecrets (rawMatches : List DetectedSecret) : SecretDetection :=
  let sorted := sortByStart rawMatches
  let deduplicated := deduplicateSecrets sorted
  { found := decide (0 < deduplicated.length), secrets := deduplicated }

/-- Result of `isSafeToStore`. -/
structure SafeCheckResult where
  safe : Bool
  reason : Option String
  secrets : Option (List DetectedSecret)
deriving DecidableEq, Repr

/-- `isSafeToStore`, parametrised by the raw matches of its input text. -/
def isSafeToStore (rawMatches : List DetectedSecret) : SafeCheckResult :=
  let detection := detectSecrets rawMatches
  if detection.found = false then
    { safe := true, reason := none, secrets := none }
  else
    let highConfidence := detection.secrets.filter (fun s => s.confidence == .high)
    if 0 < highConfidence.length then
      { safe := false,
        reason := some ("Found " ++ toString highConfidence.length ++
          " high-confidence secret(s): " ++
          String.intercalate ", " (highConfidence.map (fun s => s.pattern))),
        secrets := some highConfidence }
    else
      let mediumConfidence := detection.secrets.filter (fun s => s.confidence == .medium)
      if MEDIUM_CONFIDENCE_BLOCK_THRESHOLD ≤ mediumConfidence.length then
        { safe := false,
          reason := some ("Found " ++ toString mediumConfidence.length ++
            " medium-confidence secret(s): " ++
            String.intercalate ", " (mediumConfidence.map (fun s => s.pattern))),
          secrets := some mediumConfidence }
      else
        { safe := true,
          reason := some ("Found " ++ toString detection.secrets.length ++
            " potential secret(s) with low/medium confidence"),
          secrets := some detection.secrets }

/-- C2: for every input (hence every raw match list), `isSafeToStore` blocks
exactly when some deduplicated detection has high confidence or at least
`MEDIUM_CONFIDENCE_BLOCK_THRESHOLD` (= 3) deduplicated detections have medium
confidence; otherwise it admits, carrying a warning reason exactly when any
detection remains. -/
theorem isSafeToStore_decision (rawMatches : List DetectedSecret) :
    ((isSafeToStore rawMatches).safe = false ↔
      ((∃ s ∈ (detectSecrets rawMatches).secrets, s.confidence = .high) ∨
        MEDIUM_CONFIDENCE_BLOCK_THRESHOLD ≤
          ((detectSecrets rawMatches).secrets.filter
            (fun s => s.confidence == .medium)).length)) ∧
    ((isSafeToStore rawMatches).reason.isSome ↔ (detectSecrets rawMatches).secrets ≠ []) := by
  have hfound_iff : (detectSecrets rawMatches).found = false ↔
      (detectSecrets rawMatches).secrets = [] := by
    simp only [detectSecrets]
    simp [List.length_eq_zero]
  have hex_iff : (∃ s ∈ (detectSecrets rawMatches).secrets, s.confidence = Confidence.high) ↔
      0 < ((detectSecrets rawMatches).secrets.filter
        (fun s => s.confidence == Confidence.high)).length := by
    rw [List.length_pos]
    constructor
    · rintro ⟨s, hm, hc⟩ hnil
      have hmem : s ∈ (detectSecrets rawMatches).secrets.filter
          (fun s => s.confidence == Confidence.high) :=
        List.mem_filter.mpr ⟨hm, by simp [hc]⟩
      rw [hnil] at hmem
      exact absurd hmem (List.not_mem_nil s)
    · intro hne2
      rcases List.exists_mem_of_ne_nil _ hne2 with ⟨s, hs⟩
      rcases List.mem_filter.mp hs with ⟨hm, hc⟩
      exact ⟨s, hm, by simpa using hc⟩
  by_cases hfound : (detectSecrets rawMatches).found = false
  · have hempty := hfound_iff.mp hfound
    constructor
    · simp [isSafeToStore, hfound, hempty, MEDIUM_CONFIDENCE_BLOCK_THRESHOLD]
    · simp [isSafeToStore, hfound, hempty]
  · have hne : (detectSecrets rawMatches).secrets ≠ [] := by
      intro hnil
      exact hfound (hfound_iff.mpr hnil)
    by_cases hhigh : 0 < ((detectSecrets rawMatches).secrets.filter
        (fun s => s.confidence == Confidence.high)).length
    · constructor
      · simp only [isSafeToStore, if_neg hfound, if_pos hhigh]
        simpa using Or.inl (hex_iff.mpr hhigh)
      · simp [isSafeToStore, hfound, hhigh, hne]
    · by_cases hmed : MEDIUM_CONFIDENCE_BLOCK_THRESHOLD ≤
          ((detectSecrets rawMatches).secrets.filter
            (fun s => s.confidence == Confidence.medium)).length
      · constructor
        · simp only [isSafeToStore, if_neg hfound, if_neg hhigh, if_pos hmed]
          simpa using Or.inr hmed
        · simp [isSafeToStore, hfound, hhigh, hmed, hne]
      · constructor
        · simp only [isSafeToStore, if_neg hfound, if_neg hhigh, if_neg hmed]
          constructor
          · intro h
            exact absurd h (by simp)
          · rintro (hex | hm)
            · exact absurd (hex_iff.mp hex) hhigh
            · exact absurd hm hmed
        · simp [isSafeToStore, hfound, hhigh, hmed, hne]

/-! ### Deduplication invariant (claim C5) -/

/-- Unfolding of the overlap test into arithmetic form. -/
theorem overlapsExisting_eq_true_iff (s e : DetectedSecret) :
    overlapsExisting s e = true ↔
      ((e.start ≤ s.start ∧ s.start ≤ e.stop) ∨ (e.start ≤ s.stop ∧ s.stop ≤ e.stop)) := by
  simp [overlapsExisting]

/-- When all earlier detections start no later than (and are well-formed
alongside) a new one, failure of the source's one-sided overlap test implies
failure of the reversed test as well. -/
theorem overlapsExisting_symm_false (s e : DetectedSecret)
    (hes : e.start ≤ e.stop) (hss : s.start ≤ s.stop)
    (hle : e.start ≤ s.start) (h : overlapsExisting s e = false) :
    overlapsExisting e s = false := by
  by_contra h2
  have h3 : overlapsExisting e s = true := by
    cases hb : overlapsExisting e s
    · exact absurd hb h2
    · rfl
  rw [overlapsExisting_eq_true_iff] at h3
  have h4 : ¬ ((e.start ≤ s.start ∧ s.start ≤ e.stop) ∨
      (e.start ≤ s.stop ∧ s.stop ≤ e.stop)) := by
    rw [← overlapsExisting_eq_true_iff]
    simp [h]
  omega

/-- Under the loop invariants, the first kept detection that the new one
overlaps is necessarily the last kept detection. -/
theorem findIdx_overlap_last (acc : List DetectedSecret) (s : DetectedSecret) (i : Nat)
    (hwfa : ∀ a ∈ acc, a.start ≤ a.stop)
    (hwfs : s.start ≤ s.stop)
    (hsort : acc.Pairwise (fun a b => a.start ≤ b.start))
    (hover : acc.Pairwise (fun a b => rangesOverlap a b = false))
    (hub : ∀ a ∈ acc, a.start ≤ s.start)
    (hfind : acc.findIdx? (fun existing => overlapsExisting s existing) = some i) :
    i + 1 = acc.length := by
  rcases List.findIdx?_eq_some_iff_findIdx_eq.mp hfind with ⟨hi, hidx⟩
  by_contra hne
  have hi1 : i + 1 < acc.length := by omega
  have hp : overlapsExisting s acc[i] = true := by
    have h1 := @List.findIdx_getElem _ (fun existing => overlapsExisting s existing)
      acc (by rw [hidx]; exact hi)
    simpa [hidx] using h1
  have hsle : acc[i].start ≤ acc[i + 1].start :=
    List.pairwise_iff_getElem.mp hsort i (i + 1) hi hi1 (by omega)
  have hno : rangesOverlap acc[i] acc[i + 1] = false :=
    List.pairwise_iff_getElem.mp hover i (i + 1) hi hi1 (by omega)
  have hnoe : overlapsExisting acc[i + 1] acc[i] = false := by
    have h2 : (overlapsExisting acc[i] acc[i + 1] ||
        overlapsExisting acc[i + 1] acc[i]) = false := by
      simpa [rangesOverlap] using hno
    exact (Bool.or_eq_false_iff.mp h2).2
  have hnoe2 : ¬ ((acc[i].start ≤ acc[i + 1].start ∧
      acc[i + 1].start ≤ acc[i].stop) ∨
      (acc[i].start ≤ acc[i + 1].stop ∧
      acc[i + 1].stop ≤ acc[i].stop)) := by
    rw [← overlapsExisting_eq_true_iff]
    simp [hnoe]
  have hub1 : acc[i + 1].start ≤ s.start := hub _ (List.getElem_mem hi1)
  rw [overlapsExisting_eq_true_iff] at hp
  omega

/-- Writing at the last position is `dropLast` plus the new element. -/
theorem list_set_last {α : Type} (l : List α) (a : α) (h : l ≠ []) :
    l.set (l.length - 1) a = l.dropLast ++ [a] := by
  have hpos : 0 < l.length := List.length_pos.mpr h
  rw [List.set_eq_take_append_cons_drop]
  rw [if_pos (by omega)]
  have hdrop : List.drop (l.length - 1 + 1) l = [] := by
    have heq : l.length - 1 + 1 = l.length := by omega
    rw [heq, List.drop_length]
  rw [hdrop, List.dropLast_eq_take]

/-- One dedup step preserves the loop invariants: every kept detection is
either an old one or the new one; the kept list stays sorted by start,
pairwise non-overlapping, and well-formed. -/
theorem dedupStep_invariant (acc : List DetectedSecret) (s : DetectedSecret)
    (hwfa : ∀ a ∈ acc, a.start ≤ a.stop)
    (hwfs : s.start ≤ s.stop)
    (hsort : acc.Pairwise (fun a b => a.start ≤ b.start))
    (hover : acc.Pairwise (fun a b => rangesOverlap a b = false))
    (hub : ∀ a ∈ acc, a.start ≤ s.start) :
    (∀ a ∈ dedupStep acc s, a ∈ acc ∨ a = s) ∧
    (dedupStep acc s).Pairwise (fun a b => a.start ≤ b.start) ∧
    (dedupStep acc s).Pairwise (fun a b => rangesOverlap a b = false) ∧
    (∀ a ∈ dedupStep acc s, a.start ≤ a.stop) := by
  cases hfind : acc.findIdx? (fun existing => overlapsExisting s existing) with
  | none =>
    have hstep : dedupStep acc s = acc ++ [s] := by
      simp only [dedupStep, hfind]
    have hallno : ∀ e ∈ acc, overlapsExisting s e = false :=
      List.findIdx?_eq_none_iff.mp hfind
    have hcross : ∀ e ∈ acc, rangesOverlap e s = false := by
      intro e he
      have h1 := hallno e he
      have h2 := overlapsExisting_symm_false s e (hwfa e he) hwfs (hub e he) h1
      simp [rangesOverlap, h1, h2]
    rw [hstep]
    refine ⟨?_, ?_, ?_, ?_⟩
    · intro a ha
      rcases List.mem_append.mp ha with h | h
      · exact Or.inl h
      · exact Or.inr (by simpa using h)
    · rw [List.pairwise_append]
      exact ⟨hsort, by simp, by intro a ha b hb; simp at hb; subst hb; exact hub a ha⟩
    · rw [List.pairwise_append]
      exact ⟨hover, by simp, by intro a ha b hb; simp at hb; subst hb; exact hcross a ha⟩
    · intro a ha
      rcases List.mem_append.mp ha with h | h
      · exact hwfa a h
      · simp at h; subst h; exact hwfs
  | some i =>
    have hlast := findIdx_overlap_last acc s i hwfa hwfs hsort hover hub hfind
    have hi : i < acc.length := by omega
    have hne : acc ≠ [] := by
      intro hnil
      rw [hnil] at hi
      simp at hi
    have hget : acc[i]? = some (acc.get ⟨i, hi⟩) := by
      simp [List.getElem?_eq_getElem hi, List.get_eq_getElem]
    by_cases hconf : CONFIDENCE_ORDER (acc.get ⟨i, hi⟩).confidence < CONFIDENCE_ORDER s.confidence
    · have hstep : dedupStep acc s = acc.dropLast ++ [s] := by
        simp only [dedupStep, hfind, hget, if_pos hconf]
        have hieq : i = acc.length - 1 := by omega
        rw [hieq]
        exact list_set_last acc s hne
      have hpre : ∀ j, (hj : j < acc.dropLast.length) →
          overlapsExisting s (acc.dropLast.get ⟨j, hj⟩) = false := by
        intro j hj
        have hlen : acc.dropLast.length = acc.length - 1 := by
          rw [List.dropLast_eq_take, List.length_take]
          omega
        have hj2 : j < acc.length := by omega
        have hjlt : j < List.findIdx (fun existing => overlapsExisting s existing) acc := by
          rcases List.findIdx?_eq_some_iff_findIdx_eq.mp hfind with ⟨_, hidx⟩
          omega
        have hnot := List.not_of_lt_findIdx hjlt
        have hgd : acc.dropLast.get ⟨j, hj⟩ = acc[j] := by
          rw [List.get_eq_getElem]
          exact List.getElem_dropLast acc j hj
        rw [hgd]
        simpa using hnot
      have hcross : ∀ e ∈ acc.dropLast, rangesOverlap e s = false := by
        intro e he
        rcases List.mem_iff_getElem.mp he with ⟨j, hj, hje⟩
        have h1 : overlapsExisting s e = false := by
          rw [← hje]
          have := hpre j hj
          simpa [List.get_eq_getElem] using this
        have hea : e ∈ acc := acc.dropLast_sublist.mem he
        have h2 := overlapsExisting_symm_false s e (hwfa e hea) hwfs (hub e hea) h1
        simp [rangesOverlap, h1, h2]
      rw [hstep]
      refine ⟨?_, ?_, ?_, ?_⟩
      · intro a ha
        rcases List.mem_append.mp ha with h | h
        · exact Or.inl (acc.dropLast_sublist.mem h)
        · exact Or.inr (by simpa using h)
      · rw [List.pairwise_append]
        refine ⟨hsort.sublist acc.dropLast_sublist, by simp, ?_⟩
        intro a ha b hb
        simp at hb
        subst hb
        exact hub a (acc.dropLast_sublist.mem ha)
      · rw [List.pairwise_append]
        refine ⟨hover.sublist acc.dropLast_sublist, by simp, ?_⟩
        intro a ha b hb
        simp at hb
        subst hb
        exact hcross a ha
      · intro a ha
        rcases List.mem_append.mp ha with h | h
        · exact hwfa a (acc.dropLast_sublist.mem h)
        · simp at h; subst h; exact hwfs
    · have hstep : dedupStep acc s = acc := by
        simp only [dedupStep, hfind, hget, if_neg hconf]
      rw [hstep]
      exact ⟨fun a ha => Or.inl ha, hsort, hover, hwfa⟩

/-- The whole deduplication fold yields a pairwise non-overlapping list,
for any sorted well-formed input and any accumulator satisfying the
invariants. -/
theorem foldl_dedup_invariant (l : List DetectedSecret) :
    ∀ acc : List DetectedSecret,
    (∀ x ∈ l, x.start ≤ x.stop) →
    l.Pairwise (fun a b => a.start ≤ b.start) →
    (∀ a ∈ acc, a.start ≤ a.stop) →
    acc.Pairwise (fun a b => a.start ≤ b.start) →
    acc.Pairwise (fun a b => rangesOverlap a b = false) →
    (∀ a ∈ acc, ∀ x ∈ l, a.start ≤ x.start) →
    (l.foldl dedupStep acc).Pairwise (fun a b => rangesOverlap a b = false) := by
  induction l with
  | nil =>
    intro acc _ _ _ _ hover _
    simpa using hover
  | cons s rest IH =>
    intro acc hwf hsortl hwfa hsorta hover hub
    rw [List.foldl_cons]
    have hwfs : s.start ≤ s.stop := hwf s (List.mem_cons_self s rest)
    have hubs : ∀ a ∈ acc, a.start ≤ s.start :=
      fun a ha => hub a ha s (List.mem_cons_self s rest)
    have hinv := dedupStep_invariant acc s hwfa hwfs hsorta hover hubs
    apply IH
    · intro x hx
      exact hwf x (List.mem_cons_of_mem s hx)
    · exact (List.pairwise_cons.mp hsortl).2
    · intro a ha
      rcases hinv.1 a ha with h | h
      · exact hwfa a h
      · subst h; exact hwfs
    · exact hinv.2.1
    · exact hinv.2.2.1
    · intro a ha x hx
      rcases hinv.1 a ha with h | h
      · exact hub a h x (List.mem_cons_of_mem s hx)
      · subst h
        exact (List.pairwise_cons.mp hsortl).1 x hx

/-- C5: the deduplicated list returned by `detectSecrets` contains no two
detections with overlapping inclusive ranges, and on an overlap the kept
detection is the higher-confidence of the two, the earlier one on ties. -/
theorem detectSecrets_no_overlap (rawMatches : List DetectedSecret)
    (hwf : ∀ s ∈ rawMatches, s.start ≤ s.stop) :
    ((detectSecrets rawMatches).secrets.Pairwise
      (fun a b => rangesOverlap a b = false)) ∧
    (∀ (dd : List DetectedSecret) (s overlapping : DetectedSecret) (i : Nat),
      dd.findIdx? (fun existing => overlapsExisting s existing) = some i →
      dd[i]? = some overlapping →
      (dedupStep dd s)[i]? = some
        (if CONFIDENCE_ORDER overlapping.confidence < CONFIDENCE_ORDER s.confidence
          then s else overlapping)) := by
  constructor
  · have hsorted : (sortByStart rawMatches).Pairwise (fun a b => a.start ≤ b.start) := by
      have htrans : ∀ a b c : DetectedSecret,
          (decide (a.start ≤ b.start)) = true → (decide (b.start ≤ c.start)) = true →
          (decide (a.start ≤ c.start)) = true := by
        intro a b c hab hbc
        simp at hab hbc ⊢
        omega
      have htotal : ∀ a b : DetectedSecret,
          ((decide (a.start ≤ b.start)) || (decide (b.start ≤ a.start))) = true := by
        intro a b
        simpa using Nat.le_total a.start b.start
      have h := List.sorted_mergeSort htrans htotal rawMatches
      exact h.imp (by intro a b hab; simpa using hab)
    have hwfsorted : ∀ s ∈ sortByStart rawMatches, s.start ≤ s.stop := by
      intro s hs
      exact hwf s (List.mem_mergeSort.mp hs)
    have hmain := foldl_dedup_invariant (sortByStart rawMatches) []
      hwfsorted hsorted (by simp) (by simp) (by simp) (by simp)
    exact hmain
  · intro dd s overlapping i hfind hget
    have hi : i < dd.length := by
      rcases List.getElem?_eq_some_iff.mp hget with ⟨h, _⟩
      exact h
    have hstep : dedupStep dd s =
        if CONFIDENCE_ORDER overlapping.confidence < CONFIDENCE_ORDER s.confidence
          then dd.set i s else dd := by
      simp only [dedupStep, hfind, hget]
    rw [hstep]
    by_cases hconf : CONFIDENCE_ORDER overlapping.confidence < CONFIDENCE_ORDER s.confidence
    · rw [if_pos hconf, if_pos hconf]
      simp [List.getElem?_set, hi]
    · rw [if_neg hconf, if_neg hconf]
      exact hget

/-- Witness for C5 at a concrete match list: an email match at offsets 0–5
overlapped by a medium-confidence API-key match at offsets 3–9. -/
theorem detectSecrets_no_overlap_witness :
    ((detectSecrets
      [{ type := "email", pattern := "Email address", start := 0, stop := 5,
          confidence := .low },
        { type := "api_key", pattern := "Generic API key", start := 3, stop := 9,
          confidence := .medium }]).secrets.Pairwise
      (fun a b => rangesOverlap a b = false)) :=
  (detectSecrets_no_overlap
    [{ type := "email", pattern := "Email address", start := 0, stop := 5,
        confidence := .low },
      { type := "api_key", pattern := "Generic API key", start := 3, stop := 9,
        confidence := .medium }] (by decide)).1

/-! ## Embedding service (`src/services/embedding-service.ts`) -/

/-- `MAX_CACHE_SIZE` — max LRU cache size. -/
def MAX_CACHE_SIZE : Nat := 10000

/-- A JavaScript runtime value appearing as a component of an embedding
array: an ordinary finite number, one of the three non-finite numbers, or a
value that is not a number at all. -/
inductive JsVal where
  | num (q : Rat)
  | nan
  | inf
  | negInf
  | notNumber
deriving DecidableEq, Repr

/-- The JavaScript test `typeof n === 'number'` (NaN and the infinities are
numbers). -/
def typeofIsNumber : JsVal → Bool
  | .notNumber => false
  | _ => true

/-- The JavaScript test `isNaN(n)` restricted to numbers (the only position
the source evaluates it in, after the `typeof` guard). -/
def jsIsNaN : JsVal → Bool
  | .nan => true
  | _ => false

/-- A finite real number, as the specification words it. -/
def isFiniteReal : JsVal → Bool
  | .num _ => true
  | _ => false

/-- `validateEmbedding` of the embedding service, with the configured small
dimension `SMALL_DIMENSIONS` as a parameter; the components are JavaScript
runtime values.  The source checks length and then
`typeof n === 'number' && !isNaN(n)` for every component. -/
def validateEmbedding (SMALL_DIMENSIONS : Nat) (embedding : List JsVal) : Bool :=
  if embedding.length ≠ SMALL_DIMENSIONS then
    false
  else if !(embedding.all (fun n => typeofIsNumber n && !jsIsNaN n)) then
    false
  else
    true

/-- The validity predicate exactly as the specification words it (`a vector
is valid iff it is exactly D_s long and every component is a finite real`),
for comparison with `validateEmbedding`. -/
def specValidEmbedding (SMALL_DIMENSIONS : Nat) (embedding : List JsVal) : Bool :=
  decide (embedding.length = SMALL_DIMENSIONS) && embedding.all isFiniteReal

/-- C9 counterexample: a vector of the configured length (384 for the local
default) all of whose components are `Infinity` is accepted by the code but
is not a vector of finite reals, contradicting the claimed equivalence. -/
theorem validateEmbedding_infinity_counterexample :
    validateEmbedding 384 (List.replicate 384 JsVal.inf) = true ∧
    specValidEmbedding 384 (List.replicate 384 JsVal.inf) = false := by
  have hall : (List.replicate 384 JsVal.inf).all
      (fun n => typeofIsNumber n && !jsIsNaN n) = true := by
    rw [List.all_eq_true]
    intro n hn
    have hne : n = JsVal.inf := List.eq_of_mem_replicate hn
    subst hne
    rfl
  have hfin : (List.replicate 384 JsVal.inf).all isFiniteReal = false := by
    apply Bool.eq_false_iff.mpr
    intro hcontra
    rw [List.all_eq_true] at hcontra
    have hmem : JsVal.inf ∈ List.replicate 384 JsVal.inf :=
      List.mem_replicate.mpr ⟨by simp, rfl⟩
    have hbad := hcontra _ hmem
    simp [isFiniteReal] at hbad
  constructor
  · rw [validateEmbedding]
    rw [if_neg (by rw [List.length_replicate]; omega)]
    rw [if_neg (by rw [hall]; decide)]
  · rw [specValidEmbedding]
    rw [hfin, Bool.and_false]

/-- C9 amended: `validateEmbedding` accepts exactly the arrays of the
configured length all of whose components are numbers other than `NaN`
(so the infinities pass, only non-numbers and `NaN` are rejected). -/
theorem validateEmbedding_characterisation (SMALL_DIMENSIONS : Nat)
    (embedding : List JsVal) :
    validateEmbedding SMALL_DIMENSIONS embedding = true ↔
      (embedding.length = SMALL_DIMENSIONS ∧
        ∀ n ∈ embedding, typeofIsNumber n = true ∧ jsIsNaN n = false) := by
  unfold validateEmbedding
  by_cases hlen : embedding.length = SMALL_DIMENSIONS
  · rw [if_neg (by simp [hlen])]
    by_cases hall : embedding.all (fun n => typeofIsNumber n && !jsIsNaN n) = true
    · rw [if_neg (by simp [hall])]
      simp only [List.all_eq_true] at hall
      constructor
      · intro _
        refine ⟨hlen, ?_⟩
        intro n hn
        have h := hall n hn
        rcases Bool.and_eq_true_iff.mp h with ⟨h1, h2⟩
        exact ⟨h1, by simpa using h2⟩
      · intro _
        rfl
    · rw [if_pos (by simpa using hall)]
      simp only [List.all_eq_true] at hall
      constructor
      · intro h
        exact absurd h (by simp)
      · rintro ⟨_, hcomp⟩
        exfalso
        apply hall
        intro n hn
        rcases hcomp n hn with ⟨h1, h2⟩
        simp [h1, h2]
  · rw [if_pos (by simpa using hlen)]
    constructor
    · intro h
      exact absurd h (by simp)
    · rintro ⟨h, _⟩
      exact absurd h hlen

/-! ### LRU cache and statistics (claims C8, C10) -/

/-- Which of the two generate entry points produced a cache key
(`getCacheKey(text, 'small' | 'large')`). -/
inductive EmbeddingVariant where
  | small
  | large
deriving DecidableEq, Repr

/-- A cache key.  The source key is SHA-256 of model id, dimension and text;
for a fixed configuration this is determined by (and models as) the pair of
the variant and the text. -/
abbrev CacheKey := EmbeddingVariant × String

/-- An LRU cache entry. -/
structure CacheEntry where
  embedding : List Rat
  timestamp : Nat
  hits : Nat
deriving DecidableEq, Repr

/-- The mutable state of the embedding service.  The JavaScript `Map` is
modelled as an association list in insertion order: the head is the
least-recently-used entry.  The local provider is modelled (the default when
no API key is configured), so `totalTokens` / `totalCost` stay zero. -/
structure EmbeddingServiceState where
  cache : List (CacheKey × CacheEntry)
  maxCacheSize : Nat
  totalEmbeddings : Nat
  cacheHits : Nat
  cacheMisses : Nat
  totalTokens : Nat
  totalCost : Rat
deriving DecidableEq, Repr

/-- The freshly constructed service. -/
def initialEmbeddingServiceState : EmbeddingServiceState :=
  { cache := [], maxCacheSize := MAX_CACHE_SIZE, totalEmbeddings := 0,
    cacheHits := 0, cacheMisses := 0, totalTokens := 0, totalCost := 0 }

/-- `Map.get`. -/
def cacheGet (cache : List (CacheKey × CacheEntry)) (key : CacheKey) :
    Option CacheEntry :=
  (cache.find? (fun p => p.1 == key)).map Prod.snd

/-- `Map.delete`. -/
def cacheDelete (cache : List (CacheKey × CacheEntry)) (key : CacheKey) :
    List (CacheKey × CacheEntry) :=
  cache.filter (fun p => !(p.1 == key))

/-- `Map.set`: update in place when the key is present, else append at the
most-recently-used end. -/
def cacheSet (cache : List (CacheKey × CacheEntry)) (key : CacheKey)
    (entry : CacheEntry) : List (CacheKey × CacheEntry) :=
  if cache.any (fun p => p.1 == key) then
    cache.map (fun p => if p.1 == key then (key, entry) else p)
  else
    cache ++ [(key, entry)]

/-- `evictLRU`: delete the first key of the map (the least recently used)
when the cache is non-empty. -/
def evictLRU (s : EmbeddingServiceState) : EmbeddingServiceState :=
  match s.cache with
  | [] => s
  | _ :: rest => { s with cache := rest }

/-- `addToCache`: evict first when at (or beyond) capacity, then insert the
new entry with zero hits. -/
def addToCache (s : EmbeddingServiceState) (key : CacheKey)
    (embedding : List Rat) (now : Nat) : EmbeddingServiceState :=
  let s1 := if s.maxCacheSize ≤ s.cache.length then evictLRU s else s
  let entry : CacheEntry := { embedding := embedding, timestamp := now, hits := 0 }
  { s1 with cache := cacheSet s1.cache key entry }

/-- Core of `generateEmbedding` / `generateLargeEmbedding` for a given
variant: bump `totalEmbeddings`; on hit bump `cacheHits`, bump the entry's
hit count, refresh its timestamp and move it to the most-recently-used end
(delete + re-insert); on miss bump `cacheMisses`, compute the embedding
(`embedOf`, the local provider) and insert via `addToCache`. -/
def generateEmbeddingWith (variant : EmbeddingVariant) (now : Nat)
    (embedOf : String → List Rat) (text : String)
    (s : EmbeddingServiceState) : List Rat × EmbeddingServiceState :=
  let s0 := { s with totalEmbeddings := s.totalEmbeddings + 1 }
  let cacheKey : CacheKey := (variant, text)
  match cacheGet s0.cache cacheKey with
  | some cached =>
    let updated := { cached with hits := cached.hits + 1, timestamp := now }
    let s1 := { s0 with
      cacheHits := s0.cacheHits + 1,
      cache := cacheSet (cacheDelete s0.cache cacheKey) cacheKey updated }
    (cached.embedding, s1)
  | none =>
    let embedding := embedOf text
    let s1 := { s0 with cacheMisses := s0.cacheMisses + 1 }
    (embedding, addToCache s1 cacheKey embedding now)

/-- `generateEmbedding` (the small / primary variant). -/
def generateEmbedding (now : Nat) (embedOf : String → List Rat) (text : String)
    (s : EmbeddingServiceState) : List Rat × EmbeddingServiceState :=
  generateEmbeddingWith .small now embedOf text s

/-- `generateLargeEmbedding`. -/
def generateLargeEmbedding (now : Nat) (embedOf : String → List Rat)
    (text : String) (s : EmbeddingServiceState) :
    List Rat × EmbeddingServiceState :=
  generateEmbeddingWith .large now embedOf text s

/-- The statistics record returned by `getStats`. -/
structure EmbeddingStats where
  totalEmbeddings : Nat
  cacheHits : Nat
  cacheMisses : Nat
  totalTokens : Nat
  totalCost : Rat
  cacheHitRate : Rat
deriving DecidableEq, Repr

/-- `getStats`. -/
def getStats (s : EmbeddingServiceState) : EmbeddingStats :=
  { totalEmbeddings := s.totalEmbeddings, cacheHits := s.cacheHits,
    cacheMisses := s.cacheMisses, totalTokens := s.totalTokens,
    totalCost := s.totalCost,
    cacheHitRate :=
      if 0 < s.totalEmbeddings then (s.cacheHits : Rat) / s.totalEmbeddings
      else 0 }

/-- One public call to the service: `generateEmbedding` or
`generateLargeEmbedding` on a text. -/
inductive EmbeddingOp where
  | genSmall (text : String)
  | genLarge (text : String)
deriving DecidableEq, Repr

/-- Run one call, keeping only the state. -/
def runEmbeddingOp (now : Nat) (embedOf largeEmbedOf : String → List Rat)
    (s : EmbeddingServiceState) (op : EmbeddingOp) : EmbeddingServiceState :=
  match op with
  | .genSmall text => (generateEmbedding now embedOf text s).2
  | .genLarge text => (generateLargeEmbedding now largeEmbedOf text s).2

/-- Run a finite sequence of calls. -/
def runEmbeddingOps (now : Nat) (embedOf largeEmbedOf : String → List Rat)
    (ops : List EmbeddingOp) (s : EmbeddingServiceState) :
    EmbeddingServiceState :=
  ops.foldl (runEmbeddingOp now embedOf largeEmbedOf) s

/-- Deleting a present key strictly shrinks the map. -/
theorem cacheDelete_length_lt (cache : List (CacheKey × CacheEntry))
    (key : CacheKey) (e : CacheEntry) (h : cacheGet cache key = some e) :
    (cacheDelete cache key).length < cache.length := by
  unfold cacheGet at h
  rcases Option.map_eq_some'.mp h with ⟨pe, hfind, _⟩
  unfold cacheDelete
  rw [List.length_filter_lt_length_iff_exists]
  refine ⟨pe, List.mem_of_find?_eq_some hfind, ?_⟩
  simp [List.find?_some hfind]

/-- After `cacheDelete`, the key is gone, so `cacheSet` appends. -/
theorem cacheSet_after_delete (cache : List (CacheKey × CacheEntry))
    (key : CacheKey) (entry : CacheEntry) :
    cacheSet (cacheDelete cache key) key entry =
      cacheDelete cache key ++ [(key, entry)] := by
  unfold cacheSet
  rw [if_neg]
  intro hany
  rcases List.any_eq_true.mp hany with ⟨p, hp, hpk⟩
  rcases List.mem_filter.mp hp with ⟨_, hnot⟩
  rw [hpk] at hnot
  simp at hnot

/-- When the key is absent, `cacheSet` appends. -/
theorem cacheSet_absent (cache : List (CacheKey × CacheEntry))
    (key : CacheKey) (entry : CacheEntry)
    (h : cacheGet cache key = none) :
    cacheSet cache key entry = cache ++ [(key, entry)] := by
  unfold cacheGet at h
  have hfind : cache.find? (fun p => p.1 == key) = none := by
    cases hf : cache.find? (fun p => p.1 == key) with
    | none => rfl
    | some pe => rw [hf] at h; simp at h
  unfold cacheSet
  rw [if_neg]
  intro hany
  rcases List.any_eq_true.mp hany with ⟨p, hp, hpk⟩
  have := List.find?_eq_none.mp hfind p hp
  exact this hpk

/-- `addToCache` changes no counter and not the capacity. -/
theorem addToCache_fields (s : EmbeddingServiceState) (key : CacheKey)
    (embedding : List Rat) (now : Nat) :
    (addToCache s key embedding now).maxCacheSize = s.maxCacheSize ∧
    (addToCache s key embedding now).totalEmbeddings = s.totalEmbeddings ∧
    (addToCache s key embedding now).cacheHits = s.cacheHits ∧
    (addToCache s key embedding now).cacheMisses = s.cacheMisses := by
  by_cases hcap : s.maxCacheSize ≤ s.cache.length
  · simp only [addToCache, if_pos hcap, evictLRU]
    cases hc : s.cache with
    | nil => simp
    | cons p rest => simp
  · simp only [addToCache, if_neg hcap]
    simp

/-- Inserting an absent key keeps the cache within its capacity. -/
theorem addToCache_length (s : EmbeddingServiceState) (key : CacheKey)
    (embedding : List Rat) (now : Nat)
    (h2 : s.cache.length ≤ s.maxCacheSize)
    (h3 : 0 < s.maxCacheSize)
    (hget : cacheGet s.cache key = none) :
    (addToCache s key embedding now).cache.length ≤ s.maxCacheSize := by
  by_cases hcap : s.maxCacheSize ≤ s.cache.length
  · have hlen : s.cache.length = s.maxCacheSize := by omega
    simp only [addToCache, if_pos hcap, evictLRU]
    cases hc : s.cache with
    | nil =>
      rw [hc] at hlen
      simp only [List.length_nil] at hlen
      omega
    | cons p rest =>
      have hrest : cacheGet rest key = none := by
        unfold cacheGet at hget ⊢
        have hfind : s.cache.find? (fun q => q.1 == key) = none := by
          cases hf : s.cache.find? (fun q => q.1 == key) with
          | none => rfl
          | some pe => rw [hf] at hget; simp at hget
        have hall := List.find?_eq_none.mp hfind
        have hallrest : ∀ x ∈ rest, ¬(x.1 == key) = true := by
          intro x hx
          exact hall x (by rw [hc]; exact List.mem_cons_of_mem p hx)
        rw [List.find?_eq_none.mpr hallrest]
        rfl
      simp only
      rw [cacheSet_absent rest key _ hrest, List.length_append]
      rw [hc] at hlen
      simp only [List.length_cons, List.length_nil] at hlen ⊢
      omega
  · simp only [addToCache, if_neg hcap]
    rw [cacheSet_absent s.cache key _ hget, List.length_append]
    simp only [List.length_cons, List.length_nil]
    omega

/-- A single `generateEmbeddingWith` call preserves the counter identity and
the cache bound, and never changes the configured capacity. -/
theorem generateEmbeddingWith_invariant (variant : EmbeddingVariant) (now : Nat)
    (embedOf : String → List Rat) (text : String) (s : EmbeddingServiceState)
    (h1 : s.totalEmbeddings = s.cacheHits + s.cacheMisses)
    (h2 : s.cache.length ≤ s.maxCacheSize)
    (h3 : 0 < s.maxCacheSize) :
    (generateEmbeddingWith variant now embedOf text s).2.totalEmbeddings =
      (generateEmbeddingWith variant now embedOf text s).2.cacheHits +
      (generateEmbeddingWith variant now embedOf text s).2.cacheMisses ∧
    (generateEmbeddingWith variant now embedOf text s).2.cache.length ≤
      (generateEmbeddingWith variant now embedOf text s).2.maxCacheSize ∧
    (generateEmbeddingWith variant now embedOf text s).2.maxCacheSize =
      s.maxCacheSize := by
  cases hget : cacheGet s.cache (variant, text) with
  | some cached =>
    simp only [generateEmbeddingWith, hget]
    refine ⟨by omega, ?_, by trivial⟩
    rw [cacheSet_after_delete, List.length_append]
    have hlt := cacheDelete_length_lt s.cache (variant, text) cached hget
    simp only [List.length_cons, List.length_nil]
    omega
  | none =>
    simp only [generateEmbeddingWith, hget]
    have hfields := addToCache_fields
      ({ s with totalEmbeddings := s.totalEmbeddings + 1, cacheMisses := s.cacheMisses + 1 })
      (variant, text) (embedOf text) now
    have hlen := addToCache_length
      ({ s with totalEmbeddings := s.totalEmbeddings + 1, cacheMisses := s.cacheMisses + 1 })
      (variant, text) (embedOf text) now h2 h3 hget
    refine ⟨?_, ?_, ?_⟩
    · rw [hfields.2.1, hfields.2.2.1, hfields.2.2.2]
      show s.totalEmbeddings + 1 = s.cacheHits + (s.cacheMisses + 1)
      omega
    · rw [hfields.1]
      exact hlen
    · rw [hfields.1]

/-- One public call preserves the statistics invariant. -/
theorem runEmbeddingOp_invariant (now : Nat)
    (embedOf largeEmbedOf : String → List Rat) (s : EmbeddingServiceState)
    (op : EmbeddingOp)
    (h1 : s.totalEmbeddings = s.cacheHits + s.cacheMisses)
    (h2 : s.cache.length ≤ s.maxCacheSize)
    (h3 : 0 < s.maxCacheSize) :
    (runEmbeddingOp now embedOf largeEmbedOf s op).totalEmbeddings =
      (runEmbeddingOp now embedOf largeEmbedOf s op).cacheHits +
      (runEmbeddingOp now embedOf largeEmbedOf s op).cacheMisses ∧
    (runEmbeddingOp now embedOf largeEmbedOf s op).cache.length ≤
      (runEmbeddingOp now embedOf largeEmbedOf s op).maxCacheSize ∧
    0 < (runEmbeddingOp now embedOf largeEmbedOf s op).maxCacheSize := by
  cases op with
  | genSmall text =>
    have h := generateEmbeddingWith_invariant .small now embedOf text s h1 h2 h3
    simp only [runEmbeddingOp, generateEmbedding]
    exact ⟨h.1, h.2.1, by rw [h.2.2]; exact h3⟩
  | genLarge text =>
    have h := generateEmbeddingWith_invariant .large now largeEmbedOf text s h1 h2 h3
    simp only [runEmbeddingOp, generateLargeEmbedding]
    exact ⟨h.1, h.2.1, by rw [h.2.2]; exact h3⟩

/-- Any sequence of calls preserves the statistics invariant. -/
theorem runEmbeddingOps_invariant (now : Nat)
    (embedOf largeEmbedOf : String → List Rat) (ops : List EmbeddingOp) :
    ∀ s : EmbeddingServiceState,
    s.totalEmbeddings = s.cacheHits + s.cacheMisses →
    s.cache.length ≤ s.maxCacheSize →
    0 < s.maxCacheSize →
    ((runEmbeddingOps now embedOf largeEmbedOf ops s).totalEmbeddings =
      (runEmbeddingOps now embedOf largeEmbedOf ops s).cacheHits +
      (runEmbeddingOps now embedOf largeEmbedOf ops s).cacheMisses ∧
    (runEmbeddingOps now embedOf largeEmbedOf ops s).cache.length ≤
      (runEmbeddingOps now embedOf largeEmbedOf ops s).maxCacheSize ∧
    0 < (runEmbeddingOps now embedOf largeEmbedOf ops s).maxCacheSize) := by
  induction ops with
  | nil =>
    intro s h1 h2 h3
    exact ⟨h1, h2, h3⟩
  | cons op rest IH =>
    intro s h1 h2 h3
    have hstep := runEmbeddingOp_invariant now embedOf largeEmbedOf s op h1 h2 h3
    have hrec := IH (runEmbeddingOp now embedOf largeEmbedOf s op)
      hstep.1 hstep.2.1 hstep.2.2
    simpa only [runEmbeddingOps, List.foldl_cons] using hrec

/-- C10: after any finite sequence of `generateEmbedding` /
`generateLargeEmbedding` calls starting from the fresh service, the counters
satisfy `totalEmbeddings = cacheHits + cacheMisses`, the reported
`cacheHitRate` is `cacheHits / totalEmbeddings` (0 when no calls were made),
and the cache never exceeds `maxCacheSize` entries. -/
theorem embeddingStats_invariant (now : Nat)
    (embedOf largeEmbedOf : String → List Rat) (ops : List EmbeddingOp) :
    (runEmbeddingOps now embedOf largeEmbedOf ops
        initialEmbeddingServiceState).totalEmbeddings =
      (runEmbeddingOps now embedOf largeEmbedOf ops
        initialEmbeddingServiceState).cacheHits +
      (runEmbeddingOps now embedOf largeEmbedOf ops
        initialEmbeddingServiceState).cacheMisses ∧
    (getStats (runEmbeddingOps now embedOf largeEmbedOf ops
        initialEmbeddingServiceState)).cacheHitRate =
      (if (runEmbeddingOps now embedOf largeEmbedOf ops
            initialEmbeddingServiceState).totalEmbeddings = 0 then 0
        else ((runEmbeddingOps now embedOf largeEmbedOf ops
            initialEmbeddingServiceState).cacheHits : Rat) /
          (runEmbeddingOps now embedOf largeEmbedOf ops
            initialEmbeddingServiceState).totalEmbeddings) ∧
    (runEmbeddingOps now embedOf largeEmbedOf ops
        initialEmbeddingServiceState).cache.length ≤
      (runEmbeddingOps now embedOf largeEmbedOf ops
        initialEmbeddingServiceState).maxCacheSize := by
  have hinv := runEmbeddingOps_invariant now embedOf largeEmbedOf ops
    initialEmbeddingServiceState rfl (by simp [initialEmbeddingServiceState])
    (by simp [initialEmbeddingServiceState, MAX_CACHE_SIZE])
  refine ⟨hinv.1, ?_, hinv.2.1⟩
  unfold getStats
  by_cases hz : (runEmbeddingOps now embedOf largeEmbedOf ops
      initialEmbeddingServiceState).totalEmbeddings = 0
  · rw [if_neg (by omega), if_pos hz]
  · rw [if_pos (by omega), if_neg hz]

/-- A key is found in the map exactly when it occurs among the map's keys. -/
theorem cacheGet_eq_none_iff (cache : List (CacheKey × CacheEntry)) (key : CacheKey) :
    cacheGet cache key = none ↔ key ∉ cache.map Prod.fst := by
  unfold cacheGet
  constructor
  · intro h hmem
    rcases List.mem_map.mp hmem with ⟨p, hp, hpk⟩
    have hfind : cache.find? (fun q => q.1 == key) = none := by
      cases hf : cache.find? (fun q => q.1 == key) with
      | none => rfl
      | some pe => rw [hf] at h; simp at h
    have := List.find?_eq_none.mp hfind p hp
    simp [hpk] at this
  · intro hmem
    have hfind : cache.find? (fun q => q.1 == key) = none := by
      rw [List.find?_eq_none]
      intro p hp hpk
      apply hmem
      exact List.mem_map.mpr ⟨p, hp, by simpa using hpk⟩
    rw [hfind]
    rfl

/-- A present key is found. -/
theorem cacheGet_isSome_of_mem (cache : List (CacheKey × CacheEntry)) (key : CacheKey)
    (h : key ∈ cache.map Prod.fst) : ∃ e, cacheGet cache key = some e := by
  cases hg : cacheGet cache key with
  | none => exact absurd h ((cacheGet_eq_none_iff cache key).mp hg)
  | some e => exact ⟨e, rfl⟩

/-- `evictLRU` drops the head of the map and changes nothing else. -/
theorem evictLRU_eq (s : EmbeddingServiceState) :
    evictLRU s = { s with cache := s.cache.tail } := by
  unfold evictLRU
  cases hc : s.cache with
  | nil =>
    show s = { s with cache := List.tail [] }
    rw [List.tail_nil, ← hc]
  | cons p rest => rfl

/-- A miss inserts the new entry at the most-recently-used end, evicting the
head exactly when the cache is at capacity; counters move accordingly. -/
theorem generateEmbeddingWith_miss (variant : EmbeddingVariant) (now : Nat)
    (embedOf : String → List Rat) (text : String) (s : EmbeddingServiceState)
    (hget : cacheGet s.cache (variant, text) = none) :
    (generateEmbeddingWith variant now embedOf text s).2.cache =
      (if s.maxCacheSize ≤ s.cache.length then s.cache.tail else s.cache) ++
        [((variant, text),
          { embedding := embedOf text, timestamp := now, hits := 0 })] ∧
    (generateEmbeddingWith variant now embedOf text s).2.maxCacheSize = s.maxCacheSize ∧
    (generateEmbeddingWith variant now embedOf text s).2.cacheMisses = s.cacheMisses + 1 ∧
    (generateEmbeddingWith variant now embedOf text s).2.cacheHits = s.cacheHits := by
  simp only [generateEmbeddingWith, hget, addToCache]
  by_cases hcap : s.maxCacheSize ≤ s.cache.length
  · rw [if_pos hcap, if_pos hcap, evictLRU_eq]
    have htail : ((EmbeddingVariant.small, text) : CacheKey) ∈ s.cache.tail.map Prod.fst →
        ((EmbeddingVariant.small, text) : CacheKey) ∈ s.cache.map Prod.fst := by
      intro hx
      rcases List.mem_map.mp hx with ⟨p, hp, hpk⟩
      exact List.mem_map.mpr ⟨p, s.cache.tail_sublist.mem hp, hpk⟩
    have hgett : cacheGet s.cache.tail (variant, text) = none := by
      rw [cacheGet_eq_none_iff]
      intro hx
      have hfull := (cacheGet_eq_none_iff s.cache (variant, text)).mp hget
      apply hfull
      rcases List.mem_map.mp hx with ⟨p, hp, hpk⟩
      exact List.mem_map.mpr ⟨p, s.cache.tail_sublist.mem hp, hpk⟩
    rw [cacheSet_absent _ _ _ hgett]
    exact ⟨rfl, rfl, rfl, rfl⟩
  · rw [if_neg hcap, if_neg hcap]
    rw [cacheSet_absent _ _ _ hget]
    exact ⟨rfl, rfl, rfl, rfl⟩

/-- A hit promotes the entry to the most-recently-used end with its hit
count bumped and timestamp refreshed, and bumps the hit counter. -/
theorem generateEmbeddingWith_hit (variant : EmbeddingVariant) (now : Nat)
    (embedOf : String → List Rat) (text : String) (s : EmbeddingServiceState)
    (e : CacheEntry) (hget : cacheGet s.cache (variant, text) = some e) :
    (generateEmbeddingWith variant now embedOf text s).2.cache =
      cacheDelete s.cache (variant, text) ++
        [((variant, text), { e with hits := e.hits + 1, timestamp := now })] ∧
    (generateEmbeddingWith variant now embedOf text s).2.cacheHits = s.cacheHits + 1 ∧
    (generateEmbeddingWith variant now embedOf text s).2.cacheMisses = s.cacheMisses := by
  simp only [generateEmbeddingWith, hget]
  rw [cacheSet_after_delete]
  exact ⟨by trivial, by trivial, by trivial⟩

/-- Accessing a list of fresh, distinct texts that fits in the remaining
capacity simply appends their keys in order (no eviction). -/
theorem runSmall_fresh (now : Nat) (embedOf largeEmbedOf : String → List Rat)
    (texts : List String) :
    ∀ s : EmbeddingServiceState,
    (∀ t ∈ texts, ((EmbeddingVariant.small, t) : CacheKey) ∉ s.cache.map Prod.fst) →
    texts.Nodup →
    s.cache.length + texts.length ≤ s.maxCacheSize →
    (runEmbeddingOps now embedOf largeEmbedOf
        (texts.map EmbeddingOp.genSmall) s).cache.map Prod.fst =
      s.cache.map Prod.fst ++
        texts.map (fun t => ((EmbeddingVariant.small, t) : CacheKey)) ∧
    (runEmbeddingOps now embedOf largeEmbedOf
        (texts.map EmbeddingOp.genSmall) s).maxCacheSize = s.maxCacheSize := by
  induction texts with
  | nil =>
    intro s _ _ _
    exact ⟨by simp [runEmbeddingOps], by simp [runEmbeddingOps]⟩
  | cons t rest IH =>
    intro s hfresh hnodup hcap
    have hget : cacheGet s.cache (EmbeddingVariant.small, t) = none :=
      (cacheGet_eq_none_iff _ _).mpr (hfresh t (List.mem_cons_self t rest))
    have hmiss := generateEmbeddingWith_miss .small now embedOf t s hget
    have hlt : ¬ s.maxCacheSize ≤ s.cache.length := by
      simp only [List.length_cons] at hcap
      omega
    rw [if_neg hlt] at hmiss
    have hrun : runEmbeddingOps now embedOf largeEmbedOf
        ((t :: rest).map EmbeddingOp.genSmall) s =
        runEmbeddingOps now embedOf largeEmbedOf (rest.map EmbeddingOp.genSmall)
          (generateEmbeddingWith .small now embedOf t s).2 := by
      simp only [List.map_cons, runEmbeddingOps, List.foldl_cons]
      rfl
    rw [hrun]
    have hkeys2 : (generateEmbeddingWith .small now embedOf t s).2.cache.map Prod.fst =
        s.cache.map Prod.fst ++ [((EmbeddingVariant.small, t) : CacheKey)] := by
      rw [hmiss.1, List.map_append]
      rfl
    have htne : t ∉ rest := (List.nodup_cons.mp hnodup).1
    have hfresh2 : ∀ u ∈ rest, ((EmbeddingVariant.small, u) : CacheKey) ∉
        (generateEmbeddingWith .small now embedOf t s).2.cache.map Prod.fst := by
      intro u hu
      rw [hkeys2]
      intro hmem
      rcases List.mem_append.mp hmem with h | h
      · exact hfresh u (List.mem_cons_of_mem t hu) h
      · simp at h
        subst h
        exact htne hu
    have hlen2 : (generateEmbeddingWith .small now embedOf t s).2.cache.length =
        s.cache.length + 1 := by
      rw [hmiss.1, List.length_append]
      rfl
    have hcap2 : (generateEmbeddingWith .small now embedOf t s).2.cache.length +
        rest.length ≤ (generateEmbeddingWith .small now embedOf t s).2.maxCacheSize := by
      rw [hlen2, hmiss.2.1]
      simp only [List.length_cons] at hcap
      omega
    rcases IH _ hfresh2 (List.nodup_cons.mp hnodup).2 hcap2 with ⟨hk, hm⟩
    constructor
    · rw [hk, hkeys2, List.append_assoc]
      rw [List.map_cons]
      rfl
    · rw [hm, hmiss.2.1]

/-- The service as the LRU tests construct it: fresh, with the capacity
field overridden to `M`. -/
def testCacheState (M : Nat) : EmbeddingServiceState :=
  { initialEmbeddingServiceState with maxCacheSize := M }

/-- C8 (amended): for any capacity M ≥ 1, after M+1 distinct texts are each
requested once in order against a fresh service of capacity M, the cache
holds exactly the keys of the last M texts in order (the first was evicted
as least recently used), so requesting the first text again is a miss while
requesting the last is a hit; and a hit always moves its entry, with bumped
hit count, to the most-recently-used end. -/
theorem generateEmbedding_lru (now : Nat) (embedOf largeEmbedOf : String → List Rat)
    (M : Nat) (texts : List String)
    (hM : 1 ≤ M) (hnodup : texts.Nodup) (hlen : texts.length = M + 1)
    (hne : texts ≠ []) :
    ((runEmbeddingOps now embedOf largeEmbedOf (texts.map EmbeddingOp.genSmall)
        (testCacheState M)).cache.map Prod.fst =
      (texts.drop 1).map (fun t => ((EmbeddingVariant.small, t) : CacheKey))) ∧
    ((generateEmbedding now embedOf (texts.head hne)
        (runEmbeddingOps now embedOf largeEmbedOf (texts.map EmbeddingOp.genSmall)
          (testCacheState M))).2.cacheMisses =
      (runEmbeddingOps now embedOf largeEmbedOf (texts.map EmbeddingOp.genSmall)
        (testCacheState M)).cacheMisses + 1) ∧
    ((generateEmbedding now embedOf (texts.getLast hne)
        (runEmbeddingOps now embedOf largeEmbedOf (texts.map EmbeddingOp.genSmall)
          (testCacheState M))).2.cacheHits =
      (runEmbeddingOps now embedOf largeEmbedOf (texts.map EmbeddingOp.genSmall)
        (testCacheState M)).cacheHits + 1) ∧
    (∀ (s : EmbeddingServiceState) (t : String) (e : CacheEntry),
      cacheGet s.cache (EmbeddingVariant.small, t) = some e →
      (generateEmbedding now embedOf t s).2.cache.getLast? =
        some ((EmbeddingVariant.small, t),
          { e with hits := e.hits + 1, timestamp := now })) := by
  have hfrontlen : texts.dropLast.length = M := by
    rw [List.length_dropLast, hlen]
    omega
  have hsplit : texts.dropLast ++ [texts.getLast hne] = texts :=
    List.dropLast_append_getLast hne
  have hnodup2 : (texts.dropLast ++ [texts.getLast hne]).Nodup := by
    rw [hsplit]
    exact hnodup
  rcases List.nodup_append.mp hnodup2 with ⟨hnfront, _, hdisj⟩
  have hlastnotin : texts.getLast hne ∉ texts.dropLast := by
    intro hin
    exact hdisj hin (by simp)
  set s1 := runEmbeddingOps now embedOf largeEmbedOf
    (texts.dropLast.map EmbeddingOp.genSmall) (testCacheState M) with hs1def
  have hfr := runSmall_fresh now embedOf largeEmbedOf texts.dropLast (testCacheState M)
    (by intro t ht; simp [testCacheState, initialEmbeddingServiceState])
    hnfront
    (by simp [testCacheState, initialEmbeddingServiceState, hfrontlen])
  have hkeys1 : s1.cache.map Prod.fst =
      texts.dropLast.map (fun t => ((EmbeddingVariant.small, t) : CacheKey)) := by
    rw [hs1def]
    have h := hfr.1
    simpa [testCacheState, initialEmbeddingServiceState] using h
  have hmax1 : s1.maxCacheSize = M := by
    rw [hs1def]
    have h := hfr.2
    simpa [testCacheState, initialEmbeddingServiceState] using h
  have hlen1 : s1.cache.length = M := by
    have hcongr := congrArg List.length hkeys1
    rw [List.length_map, List.length_map] at hcongr
    rw [hcongr, hfrontlen]
  have hgetlast : cacheGet s1.cache (EmbeddingVariant.small, texts.getLast hne) = none := by
    rw [cacheGet_eq_none_iff, hkeys1]
    intro hmem
    rcases List.mem_map.mp hmem with ⟨u, hu, hk⟩
    have hu2 : u = texts.getLast hne := by
      simpa using congrArg Prod.snd hk
    rw [hu2] at hu
    exact hlastnotin hu
  have hm2 := generateEmbeddingWith_miss .small now embedOf (texts.getLast hne) s1 hgetlast
  rw [if_pos (by rw [hlen1, hmax1])] at hm2
  have hfull : runEmbeddingOps now embedOf largeEmbedOf (texts.map EmbeddingOp.genSmall)
      (testCacheState M) =
      (generateEmbeddingWith .small now embedOf (texts.getLast hne) s1).2 := by
    conv_lhs => rw [← hsplit]
    rw [hs1def]
    simp only [List.map_append, List.map_cons, List.map_nil, runEmbeddingOps,
      List.foldl_append, List.foldl_cons, List.foldl_nil]
    rfl
  have hdrop : texts.drop 1 = texts.dropLast.drop 1 ++ [texts.getLast hne] := by
    conv_lhs => rw [← hsplit]
    rw [List.drop_append_of_le_length (by rw [hfrontlen]; omega)]
  have hkeysf : (runEmbeddingOps now embedOf largeEmbedOf
      (texts.map EmbeddingOp.genSmall) (testCacheState M)).cache.map Prod.fst =
      (texts.drop 1).map (fun t => ((EmbeddingVariant.small, t) : CacheKey)) := by
    rw [hfull, hm2.1, List.map_append, List.map_tail, hkeys1]
    rw [hdrop, List.map_append, List.map_drop, List.drop_one]
    rfl
  refine ⟨hkeysf, ?_, ?_, ?_⟩
  · have hheadnotin : texts.head hne ∉ texts.drop 1 := by
      have hcons := List.head_cons_tail texts hne
      have hnd : (texts.head hne :: texts.tail).Nodup := by
        rw [hcons]
        exact hnodup
      rw [List.drop_one]
      exact (List.nodup_cons.mp hnd).1
    have hget1 : cacheGet (runEmbeddingOps now embedOf largeEmbedOf
        (texts.map EmbeddingOp.genSmall) (testCacheState M)).cache
        (EmbeddingVariant.small, texts.head hne) = none := by
      rw [cacheGet_eq_none_iff, hkeysf]
      intro hmem
      rcases List.mem_map.mp hmem with ⟨u, hu, hk⟩
      have hu2 : u = texts.head hne := by
        simpa using congrArg Prod.snd hk
      rw [hu2] at hu
      exact hheadnotin hu
    exact (generateEmbeddingWith_miss .small now embedOf (texts.head hne) _ hget1).2.2.1
  · have hmem : ((EmbeddingVariant.small, texts.getLast hne) : CacheKey) ∈
        (runEmbeddingOps now embedOf largeEmbedOf
          (texts.map EmbeddingOp.genSmall) (testCacheState M)).cache.map Prod.fst := by
      rw [hkeysf, hdrop, List.map_append]
      exact List.mem_append.mpr (Or.inr (by simp))
    rcases cacheGet_isSome_of_mem _ _ hmem with ⟨e, he⟩
    exact (generateEmbeddingWith_hit .small now embedOf (texts.getLast hne) _ e he).2.1
  · intro s t e hget
    simp only [generateEmbedding]
    rw [(generateEmbeddingWith_hit .small now embedOf t s e hget).1]
    exact List.getLast?_concat _

/-- C8 counterexample to the claim as stated, at capacity M = 0: after the
single distinct key is accessed once, the insert-at-capacity path still
leaves that entry in the cache (evicting from an empty map is a no-op), so
requesting k1 = k_{M+1} again is a hit, not the claimed miss. -/
theorem generateEmbedding_lru_counterexample :
    (generateEmbedding 0 (fun _ => []) "a"
        (runEmbeddingOps 0 (fun _ => []) (fun _ => [])
          ([("a" : String)].map EmbeddingOp.genSmall) (testCacheState 0))).2.cacheHits =
      (runEmbeddingOps 0 (fun _ => []) (fun _ => [])
        ([("a" : String)].map EmbeddingOp.genSmall) (testCacheState 0)).cacheHits + 1 ∧
    (generateEmbedding 0 (fun _ => []) "a"
        (runEmbeddingOps 0 (fun _ => []) (fun _ => [])
          ([("a" : String)].map EmbeddingOp.genSmall) (testCacheState 0))).2.cacheMisses =
      (runEmbeddingOps 0 (fun _ => []) (fun _ => [])
        ([("a" : String)].map EmbeddingOp.genSmall) (testCacheState 0)).cacheMisses := by
  exact ⟨by rfl, by rfl⟩

/-- Witness for C8 (amended) at M = 1 with texts `a`, `b`: after both are
accessed, only `b`'s key remains. -/
theorem generateEmbedding_lru_witness :
    (runEmbeddingOps 0 (fun _ => []) (fun _ => [])
        ((["a", "b"] : List String).map EmbeddingOp.genSmall)
        (testCacheState 1)).cache.map Prod.fst =
      ((["a", "b"] : List String).drop 1).map
        (fun t => ((EmbeddingVariant.small, t) : CacheKey)) :=
  (generateEmbedding_lru 0 (fun _ => []) (fun _ => []) 1 ["a", "b"]
    (by decide) (by decide) (by decide) (by decide)).1

/-! ## Vector index controller (`src/services/qdrant-client.ts`)

The external Qdrant server is modelled as a list of points in creation
order; retrieve / delete / scroll / count / filter-evaluation semantics of
the server follow the specification of the external collaborator in §4.4 /
§6 of the spec (points match a filter when every `must` condition holds;
`match {value: null}` on `expires_at` matches points without expiry;
`range {gt}` compares instants).  Everything else in this section embeds
code of `qdrant-client.ts` itself. -/

/-- An ISO-8601 instant, modelled as an abstract time value; comparisons of
ISO-8601 UTC strings agree with comparisons of the instants they denote. -/
abbrev Timestamp := Nat

/-- `DEFAULT_CONFIDENCE` — default confidence score for new points. -/
def DEFAULT_CONFIDENCE : Rat := 7 / 10

/-- `RRF_K` — RRF rank fusion constant. -/
def RRF_K : Nat := 60

/-- `DEFAULT_SEARCH_LIMIT` — default search result limit. -/
def DEFAULT_SEARCH_LIMIT : Nat := 10

/-- The three memory classification types. -/
inductive MemoryType where
  | longTerm
  | episodic
  | shortTerm
deriving DecidableEq, Repr

/-- The string tag of a memory type as stored in the payload. -/
def memoryTypeString : MemoryType → String
  | .longTerm => "long-term"
  | .episodic => "episodic"
  | .shortTerm => "short-term"

/-- The stored payload of a point (`QdrantPayload`).  The open index
signature for arbitrary caller fields, and the chunk bookkeeping fields,
are not modelled; no claim constrains them.  `workspace`,
`last_accessed_at` and `expires_at` use `none` for `null`/absent. -/
structure QdrantPayload where
  content : String
  workspace : Option String
  memory_type : MemoryType
  confidence : Rat
  tags : List String
  created_at : Timestamp
  updated_at : Timestamp
  access_count : Nat
  last_accessed_at : Option Timestamp
  expires_at : Option Timestamp
deriving DecidableEq, Repr

/-- `Partial<QdrantPayload>` as handed to `upsert`: an outer `none` means
the field is absent from the caller's object (so JavaScript `??` defaulting
and the `...metadata` spread skip it). -/
structure PartialPayload where
  id : Option String
  workspace : Option (Option String)
  memory_type : Option MemoryType
  confidence : Option Rat
  tags : Option (List String)
  created_at : Option Timestamp
  updated_at : Option Timestamp
  access_count : Option Nat
  last_accessed_at : Option (Option Timestamp)
  expires_at : Option (Option Timestamp)
deriving DecidableEq, Repr

/-- A caller object carrying no fields at all. -/
def emptyPartialPayload : PartialPayload :=
  { id := none, workspace := none, memory_type := none, confidence := none,
    tags := none, created_at := none, updated_at := none, access_count := none,
    last_accessed_at := none, expires_at := none }

/-- The payload object literal built by `QdrantService.upsert`:

```
{ content, workspace: metadata.workspace ?? null, memory_type: … ?? 'long-term',
  confidence: … ?? DEFAULT_CONFIDENCE, tags: … ?? [], created_at: … ?? now,
  updated_at: now, access_count: … ?? 0, last_accessed_at: … ?? null,
  ...metadata }
```

Because the `...metadata` spread comes last, every field present in
`metadata` wins over the defaults written before it — in particular a
caller-supplied `updated_at` silently replaces the `updated_at: now` that
the literal assigns unconditionally, so each field evaluates to
`metadata.field ?? default`. -/
def upsertPayload (now : Timestamp) (content : String) (metadata : PartialPayload) :
    QdrantPayload :=
  { content := content
    workspace := metadata.workspace.getD none
    memory_type := metadata.memory_type.getD .longTerm
    confidence := metadata.confidence.getD DEFAULT_CONFIDENCE
    tags := metadata.tags.getD []
    created_at := metadata.created_at.getD now
    updated_at := metadata.updated_at.getD now
    access_count := metadata.access_count.getD 0
    last_accessed_at := metadata.last_accessed_at.getD none
    expires_at := metadata.expires_at.getD none }

/-- A stored point: id, named vectors and payload. -/
structure QdrantPoint where
  id : String
  dense : List Rat
  dense_large : Option (List Rat)
  payload : QdrantPayload
deriving DecidableEq, Repr

/-- The collection: points in creation order. -/
abbrev QdrantStore := List QdrantPoint

/-- The server's upsert: replace the point with the same id, else append
(modelled external semantics; `upsert` waits for acknowledgement). -/
def storeUpsert (store : QdrantStore) (point : QdrantPoint) : QdrantStore :=
  if store.any (fun p => p.id == point.id) then
    store.map (fun p => if p.id == point.id then point else p)
  else
    store ++ [point]

namespace QdrantService

/-- `QdrantService.upsert`: choose `metadata.id ?? uuidv4()`, build the
payload literal, and upsert the point.  Returns the id and the new store. -/
def upsert (now : Timestamp) (freshId : String) (content : String)
    (vector : List Rat) (metadata : PartialPayload)
    (vectorLarge : Option (List Rat)) (store : QdrantStore) :
    String × QdrantStore :=
  let id := metadata.id.getD freshId
  let payload := upsertPayload now content metadata
  let point : QdrantPoint :=
    { id := id, dense := vector, dense_large := vectorLarge, payload := payload }
  (id, storeUpsert store point)

/-- `QdrantService.get`: retrieve one point by id, `none` when absent.
(The fire-and-forget access tracking side effect is not modelled.) -/
def get (store : QdrantStore) (id : String) : Option QdrantPoint :=
  store.find? (fun p => p.id == id)

/-- `QdrantService.delete`: the server removes the point with this id when
present and acknowledges either way (idempotent). -/
def delete (store : QdrantStore) (id : String) : QdrantStore :=
  store.filter (fun p => !(p.id == id))

end QdrantService

/-- `SearchFilters` (the caller-facing filter object).  An outer `none`
models an absent (`undefined`) field.  The open `metadata` bag of custom
equality conditions is not modelled; no claim constrains it. -/
structure SearchFilters where
  workspace : Option (Option String)
  memory_type : Option MemoryType
  minConfidence : Option Rat
  tags : Option (List String)
deriving DecidableEq, Repr

/-- A filter object with every field absent. -/
def emptySearchFilters : SearchFilters :=
  { workspace := none, memory_type := none, minConfidence := none, tags := none }

/-- A value in a `match { value: … }` condition. -/
inductive FilterVal where
  | str (s : String)
  | null
deriving DecidableEq, Repr

/-- A single (non-`should`) filter condition as built by `buildFilter`. -/
inductive FilterLeaf where
  | matchValue (key : String) (value : FilterVal)
  | rangeGte (key : String) (value : Rat)
  | rangeGt (key : String) (value : Timestamp)
  | matchAny (key : String) (values : List String)
deriving DecidableEq, Repr

/-- A condition of the `must` list: a leaf or a `should` disjunction. -/
inductive FilterCond where
  | leaf (c : FilterLeaf)
  | should (cs : List FilterLeaf)
deriving DecidableEq, Repr

/-- The filter object sent to the index: AND of `must` conditions. -/
structure QdrantFilter where
  must : List FilterCond
deriving DecidableEq, Repr

/-- The `conditions` array accumulated by `buildFilter` for a present
`SearchFilters` object, in source push order: workspace equality,
memory-type equality, minimum-confidence range, the always-pushed expiry
exclusion (`should`: `expires_at` null OR `expires_at > now`), tags
match-any. -/
def buildConditions (now : Timestamp) (filter : SearchFilters) : List FilterCond :=
  (match filter.workspace with
    | none => []
    | some w => [FilterCond.leaf (.matchValue "workspace"
        (match w with | some s => .str s | none => .null))]) ++
  (match filter.memory_type with
    | none => []
    | some m => [FilterCond.leaf (.matchValue "memory_type" (.str (memoryTypeString m)))]) ++
  (match filter.minConfidence with
    | none => []
    | some q => [FilterCond.leaf (.rangeGte "confidence" q)]) ++
  [FilterCond.should [.matchValue "expires_at" .null, .rangeGt "expires_at" now]] ++
  (match filter.tags with
    | none => []
    | some ts => if 0 < ts.length then [FilterCond.leaf (.matchAny "tags" ts)] else [])

/-- `buildFilter`: `undefined` in, `undefined` out — when the caller passes
no `SearchFilters` object at all the function returns before any condition
(including the expiry exclusion) is built. -/
def buildFilter (now : Timestamp) (filter : Option SearchFilters) :
    Option QdrantFilter :=
  match filter with
  | none => none
  | some f =>
    let conditions := buildConditions now f
    if 0 < conditions.length then some { must := conditions } else none

/-- Evaluation of one leaf condition against a point (modelled external
index semantics). -/
def evalLeaf (p : QdrantPoint) : FilterLeaf → Bool
  | .matchValue key value =>
    if key = "workspace" then
      match value with
      | .null => p.payload.workspace.isNone
      | .str s => p.payload.workspace == some s
    else if key = "memory_type" then
      match value with
      | .str s => memoryTypeString p.payload.memory_type == s
      | .null => false
    else if key = "expires_at" then
      match value with
      | .null => p.payload.expires_at.isNone
      | .str _ => false
    else false
  | .rangeGte key v =>
    if key = "confidence" then decide (v ≤ p.payload.confidence) else false
  | .rangeGt key t =>
    if key = "expires_at" then
      match p.payload.expires_at with
      | some te => decide (t < te)
      | none => false
    else false
  | .matchAny key values =>
    if key = "tags" then p.payload.tags.any (fun tg => values.contains tg) else false

/-- Evaluation of a `must` entry. -/
def evalCond (p : QdrantPoint) : FilterCond → Bool
  | .leaf c => evalLeaf p c
  | .should cs => cs.any (evalLeaf p)

/-- A point matches an optional filter; no filter matches everything
(modelled external index semantics). -/
def satisfiesFilter (p : QdrantPoint) : Option QdrantFilter → Bool
  | none => true
  | some f => f.must.all (evalCond p)

namespace QdrantService

/-- `QdrantService.list`: scroll with the built filter, offset and limit. -/
def list (now : Timestamp) (store : QdrantStore) (filter : Option SearchFilters)
    (limit offset : Nat) : List QdrantPoint :=
  (((store.filter (fun p => satisfiesFilter p (buildFilter now filter))).drop
    offset).take limit)

/-- `QdrantService.count`: count against the built filter. -/
def count (now : Timestamp) (store : QdrantStore) (filter : Option SearchFilters) :
    Nat :=
  (store.filter (fun p => satisfiesFilter p (buildFilter now filter))).length

end QdrantService

/-- The payload of a concrete stored point whose `expires_at` (instant 500)
is already in the past at query time (instant 1000). -/
def expiredPayloadExample : QdrantPayload :=
  { content := "old", workspace := none, memory_type := .longTerm,
    confidence := 1, tags := [], created_at := 100, updated_at := 100,
    access_count := 0, last_accessed_at := none, expires_at := some 500 }

/-- A concrete stored, already-expired point. -/
def expiredPointExample : QdrantPoint :=
  { id := "p1", dense := [], dense_large := none, payload := expiredPayloadExample }

/-- C1: evaluation of `buildFilter` at the failing input.  When the caller
supplies no `SearchFilters` object, `buildFilter` returns `undefined`
before reaching its "always exclude expired memories" block, so `list` and
`count` are sent no filter at all and an expired point is returned and
counted.  By contrast, any present filter object — even an empty one —
does carry the expiry-exclusion `should` clause. -/
theorem buildFilter_missing_expiry_exclusion :
    buildFilter 1000 none = none ∧
    QdrantService.list 1000 [expiredPointExample] none 100 0 = [expiredPointExample] ∧
    QdrantService.count 1000 [expiredPointExample] none = 1 ∧
    QdrantService.list 1000 [expiredPointExample] (some emptySearchFilters) 100 0 = [] ∧
    (∀ (nowT : Timestamp) (f : SearchFilters),
      FilterCond.should [.matchValue "expires_at" .null, .rangeGt "expires_at" nowT] ∈
        buildConditions nowT f) := by
  refine ⟨rfl, by decide, by decide, by decide, ?_⟩
  intro nowT f
  unfold buildConditions
  exact List.mem_append.mpr (Or.inl (List.mem_append.mpr (Or.inr
    (List.mem_singleton.mpr rfl))))

/-- C4: evaluation of the upsert payload synthesis.  A caller-supplied
`updated_at` (instant 1000) survives into the stored payload even though
the literal assigns `updated_at: now` (instant 2000) — the trailing
`...metadata` spread overrides it — contradicting the claim that
`updated_at` always equals the current time.  All the other claimed
defaults hold for an empty caller object, and the id is the fresh UUID
when absent. -/
theorem upsert_updated_at_not_refreshed :
    (upsertPayload 2000 "hello"
      { emptyPartialPayload with updated_at := some 1000 }).updated_at = 1000 ∧
    (upsertPayload 2000 "hello"
      { emptyPartialPayload with updated_at := some 1000 }).updated_at ≠ 2000 ∧
    (upsertPayload 2000 "hello" emptyPartialPayload).updated_at = 2000 ∧
    (QdrantService.upsert 2000 "fresh-uuid" "hello" [] emptyPartialPayload
      none []).1 = "fresh-uuid" ∧
    (upsertPayload 2000 "hello" emptyPartialPayload).memory_type = MemoryType.longTerm ∧
    (upsertPayload 2000 "hello" emptyPartialPayload).confidence = DEFAULT_CONFIDENCE ∧
    (upsertPayload 2000 "hello" emptyPartialPayload).access_count = 0 ∧
    (upsertPayload 2000 "hello" emptyPartialPayload).last_accessed_at = none ∧
    (upsertPayload 2000 "hello" emptyPartialPayload).created_at = 2000 :=
  ⟨rfl, by decide, rfl, rfl, rfl, rfl, rfl, rfl, rfl⟩

/-! ## Tool orchestration (`src/tools/memory-tools.ts`)

The response helpers (`successResponse`, `errorResponse`, `notFoundError`)
are embedded from `src/utils/response.ts` (staged among the provided
sources inside `src/src/utils/logger.ts`); the handlers themselves are
embedded from `memory-tools.ts`. -/

/-- Error taxonomy of the response envelope. -/
inductive ErrorType where
  | VALIDATION_ERROR
  | CONNECTION_ERROR
  | TIMEOUT_ERROR
  | SERVER_ERROR
  | CLIENT_ERROR
  | NOT_FOUND_ERROR
  | AUTHENTICATION_ERROR
  | EXECUTION_ERROR
  | UNKNOWN_ERROR
deriving DecidableEq, Repr

/-- The structured `metadata` bag of an envelope; only the machine-readable
`error_code` field is modelled (the secret list, summary, suggestion,
preview and timing entries are informational strings no claim inspects). -/
structure ResponseMetadata where
  error_code : Option String
deriving DecidableEq, Repr

/-- The uniform envelope every tool handler returns.  The success `data`
payload is not modelled; claims inspect only the outcome fields. -/
structure StandardResponse where
  success : Bool
  message : String
  error : Option String
  error_type : Option ErrorType
  metadata : ResponseMetadata
deriving DecidableEq, Repr

/-- `successResponse` of `src/utils/response.ts`:
`{ success: true, message, data, metadata }`.  The optional `data` payload
is not modelled, and an omitted `metadata` bag is the empty bag; `error`
and `error_type` are absent on success. -/
def successResponse (message : String) : StandardResponse :=
  { success := true, message := message, error := none, error_type := none,
    metadata := { error_code := none } }

/-- `errorResponse(message, errorType = UNKNOWN_ERROR, error?, metadata?)`
of `src/utils/response.ts`: `{ success: false, message, error: error ??
message, error_type: errorType, metadata }`.  The optional-with-default
`errorType` parameter and the optional `error` are modelled as `Option`
arguments (`none` = the caller omitted them). -/
def errorResponse (message : String) (error_type : Option ErrorType)
    (error : Option String) (metadata : ResponseMetadata) : StandardResponse :=
  { success := false, message := message,
    error := some (error.getD message),
    error_type := some (error_type.getD .UNKNOWN_ERROR),
    metadata := metadata }

/-- `notFoundError(resource)` of `src/utils/response.ts`:
`errorResponse(resource + " not found", NOT_FOUND_ERROR)` with `error` and
`metadata` omitted (the omitted bag is the empty bag). -/
def notFoundError (resource : String) : StandardResponse :=
  errorResponse (resource ++ " not found") (some .NOT_FOUND_ERROR) none
    { error_code := none }

/-- `memoryGetHandler`: look the id up; `NOT_FOUND_ERROR` on miss. -/
def memoryGetHandler (store : QdrantStore) (id : String) : StandardResponse :=
  match QdrantService.get store id with
  | none => notFoundError ("Memory with ID " ++ id)
  | some _ => successResponse "Memory retrieved successfully"

/-- `memoryDeleteHandler`: existence-check (returning `NOT_FOUND_ERROR` for
an absent id) and then delete.  Returns the envelope and the store after
the call. -/
def memoryDeleteHandler (store : QdrantStore) (id : String) :
    StandardResponse × QdrantStore :=
  match QdrantService.get store id with
  | none => (notFoundError ("Memory with ID " ++ id), store)
  | some _ => (successResponse "Memory deleted successfully",
      QdrantService.delete store id)

/-- Deleting an id removes it: the subsequent lookup finds nothing. -/
theorem qdrant_get_delete (store : QdrantStore) (id : String) :
    QdrantService.get (QdrantService.delete store id) id = none := by
  unfold QdrantService.get QdrantService.delete
  rw [List.find?_eq_none]
  intro p hp hpk
  rcases List.mem_filter.mp hp with ⟨_, hne⟩
  rw [hpk] at hne
  simp at hne

/-- C3 (amended): after a successful `memory-delete` of a stored id,
`memory-get` of that id returns `NOT_FOUND_ERROR`, and a second
`memory-delete` of the now-absent id leaves the store unchanged (the index
delete is never reached) but returns `NOT_FOUND_ERROR` rather than
succeeding silently. -/
theorem memoryDeleteHandler_delete_then_get (store : QdrantStore) (id : String)
    (p : QdrantPoint) (hstored : QdrantService.get store id = some p) :
    (memoryDeleteHandler store id).1.success = true ∧
    (memoryGetHandler (memoryDeleteHandler store id).2 id).success = false ∧
    (memoryGetHandler (memoryDeleteHandler store id).2 id).error_type =
      some ErrorType.NOT_FOUND_ERROR ∧
    (memoryDeleteHandler (memoryDeleteHandler store id).2 id).2 =
      (memoryDeleteHandler store id).2 ∧
    (memoryDeleteHandler (memoryDeleteHandler store id).2 id).1.success = false ∧
    (memoryDeleteHandler (memoryDeleteHandler store id).2 id).1.error_type =
      some ErrorType.NOT_FOUND_ERROR := by
  have h1 : memoryDeleteHandler store id =
      (successResponse "Memory deleted successfully", QdrantService.delete store id) := by
    simp only [memoryDeleteHandler, hstored]
  set s2 := (memoryDeleteHandler store id).2 with hs2
  have h2 : QdrantService.get s2 id = none := by
    rw [hs2, h1]
    exact qdrant_get_delete store id
  refine ⟨?_, ?_, ?_, ?_, ?_, ?_⟩
  · rw [h1]
    rfl
  · simp only [memoryGetHandler, h2]
    rfl
  · simp only [memoryGetHandler, h2]
    rfl
  · simp only [memoryDeleteHandler, h2]
  · simp only [memoryDeleteHandler, h2]
    rfl
  · simp only [memoryDeleteHandler, h2]
    rfl

/-- The payload of a concrete stored point for the delete scenario. -/
def storedPayloadExample : QdrantPayload :=
  { content := "note", workspace := none, memory_type := .longTerm,
    confidence := 1, tags := [], created_at := 100, updated_at := 100,
    access_count := 0, last_accessed_at := none, expires_at := none }

/-- A concrete stored point for the delete scenario. -/
def storedPointExample : QdrantPoint :=
  { id := "m1", dense := [], dense_large := none, payload := storedPayloadExample }

/-- C3 counterexample to the claim as stated: on the concrete store holding
one point, the second `memory-delete` of the same id does produce an error
envelope (`success = false`, `NOT_FOUND_ERROR`), so the subsequent delete
is not error-free as claimed. -/
theorem memoryDeleteHandler_second_delete_errors :
    (memoryDeleteHandler [storedPointExample] "m1").1.success = true ∧
    (memoryDeleteHandler (memoryDeleteHandler [storedPointExample] "m1").2
      "m1").1.success = false ∧
    (memoryDeleteHandler (memoryDeleteHandler [storedPointExample] "m1").2
      "m1").1.error_type = some ErrorType.NOT_FOUND_ERROR :=
  ⟨rfl, rfl, rfl⟩

/-- Witness for C3 (amended) at the concrete store holding one point. -/
theorem memoryDeleteHandler_delete_then_get_witness :
    (memoryDeleteHandler [storedPointExample] "m1").1.success = true ∧
    (memoryGetHandler (memoryDeleteHandler [storedPointExample] "m1").2
      "m1").error_type = some ErrorType.NOT_FOUND_ERROR :=
  ⟨(memoryDeleteHandler_delete_then_get [storedPointExample] "m1"
      storedPointExample rfl).1,
    (memoryDeleteHandler_delete_then_get [storedPointExample] "m1"
      storedPointExample rfl).2.2.1⟩

/-- `CHUNK_THRESHOLD_LENGTH` — character threshold above which content is
chunked. -/
def CHUNK_THRESHOLD_LENGTH : Nat := 1000

/-- `EPISODIC_EXPIRY_DAYS`. -/
def EPISODIC_EXPIRY_DAYS : Nat := 90

/-- `SHORT_TERM_EXPIRY_DAYS`. -/
def SHORT_TERM_EXPIRY_DAYS : Nat := 7

/-- Milliseconds per day; the source's calendar-day addition
(`Date.setDate(getDate() + days)`) is modelled as fixed-length days. -/
def MS_PER_DAY : Nat := 86400000

/-- The chunking loop of `chunkText`: slice `[start, start + chunkSize)`,
advance by `chunkSize - overlap`.  The JavaScript loop runs while
`start < text.length`; the fuel argument bounds the iteration count (the
shipped configuration `chunkSize = 1000 > overlap = 200` always advances). -/
def chunkLoop : Nat → List Char → Nat → Nat → Nat → List String
  | 0, _, _, _, _ => []
  | fuel + 1, text, start, chunkSize, overlap =>
    if start < text.length then
      let stop := min (start + chunkSize) text.length
      ((text.drop start).take (stop - start)).asString ::
        chunkLoop fuel text (start + (chunkSize - overlap)) chunkSize overlap
    else []

/-- `chunkText`: one window for short inputs, else overlapping windows. -/
def chunkText (text : String) (chunkSize overlap : Nat) : List String :=
  if text.length ≤ chunkSize then [text]
  else chunkLoop (text.length + 1) text.toList 0 chunkSize overlap

/-- The deterministic environment a `memory-store` call runs in: the secret
scanner's match collection for each text, the clock, a fresh-UUID supply,
the two embedding functions, and the workspace the detector would report. -/
structure StoreEnv where
  matchesOf : String → List DetectedSecret
  now : Timestamp
  freshIds : Nat → String
  embedSmall : String → List Rat
  embedLarge : String → List Rat
  detectedWorkspace : Option String
  chunkSize : Nat
  chunkOverlap : Nat

/-- `memoryStoreHandler`: scan for secrets and refuse with
`VALIDATION_ERROR` / `SECRETS_DETECTED` before anything else; otherwise
derive `expires_at` from the memory type when absent, resolve and lowercase
the workspace, then upsert once — or once per chunk when auto-chunking a
long content.  Returns the envelope, the store after the call, and how many
upserts were issued against the index. -/
def memoryStoreHandler (env : StoreEnv) (content : String)
    (metadata : PartialPayload) (auto_chunk : Bool) (store : QdrantStore) :
    StandardResponse × QdrantStore × Nat :=
  let safetyCheck := isSafeToStore (env.matchesOf content)
  if safetyCheck.safe = false then
    (errorResponse "Cannot store content containing sensitive information"
        (some .VALIDATION_ERROR) safetyCheck.reason
        { error_code := some "SECRETS_DETECTED" },
      store, 0)
  else
    let metadata1 :=
      if metadata.expires_at.isNone then
        match metadata.memory_type with
        | some .episodic => { metadata with expires_at := some (some (env.now + EPISODIC_EXPIRY_DAYS * MS_PER_DAY)) }
        | some .shortTerm => { metadata with expires_at := some (some (env.now + SHORT_TERM_EXPIRY_DAYS * MS_PER_DAY)) }
        | _ => metadata
      else metadata
    let metadata2 :=
      if metadata1.workspace.isNone then
        { metadata1 with workspace := some env.detectedWorkspace }
      else metadata1
    let metadata3 :=
      match metadata2.workspace with
      | some (some w) => { metadata2 with workspace := some (some w.toLower) }
      | _ => metadata2
    if auto_chunk && decide (CHUNK_THRESHOLD_LENGTH < content.length) then
      let chunks := chunkText content env.chunkSize env.chunkOverlap
      let final := chunks.foldl
        (fun (acc : QdrantStore × Nat) chunk =>
          ((QdrantService.upsert env.now (env.freshIds acc.2) chunk
            (env.embedSmall chunk) metadata3 (some (env.embedLarge chunk))
            acc.1).2, acc.2 + 1))
        (store, 0)
      (successResponse "Memory stored successfully (chunked)", final.1, final.2)
    else
      (successResponse "Memory stored successfully",
        (QdrantService.upsert env.now (env.freshIds 0) content
          (env.embedSmall content) metadata3
          (some (env.embedLarge content)) store).2, 1)

/-- C7: whenever the secret scanner blocks the content, `memory-store`
returns a failure envelope with `VALIDATION_ERROR` and
`metadata.error_code = SECRETS_DETECTED`, issues zero upserts, and leaves
the store unchanged. -/
theorem memoryStoreHandler_blocks_secrets (env : StoreEnv) (content : String)
    (metadata : PartialPayload) (auto_chunk : Bool) (store : QdrantStore)
    (hblock : (isSafeToStore (env.matchesOf content)).safe = false) :
    (memoryStoreHandler env content metadata auto_chunk store).1.success = false ∧
    (memoryStoreHandler env content metadata auto_chunk store).1.error_type =
      some ErrorType.VALIDATION_ERROR ∧
    (memoryStoreHandler env content metadata auto_chunk store).1.metadata.error_code =
      some "SECRETS_DETECTED" ∧
    (memoryStoreHandler env content metadata auto_chunk store).2.1 = store ∧
    (memoryStoreHandler env content metadata auto_chunk store).2.2 = 0 := by
  simp only [memoryStoreHandler, if_pos hblock]
  exact ⟨by trivial, by trivial, by trivial, by trivial, by trivial⟩

/-- A concrete raw-match list as the scanner produces for the scenario
content `"key=sk-" ++ "a" * 48`: one high-confidence OpenAI key match at
offsets 4–55. -/
def openaiKeyMatchExample : DetectedSecret :=
  { type := "openai_key", pattern := "OpenAI API key", start := 4, stop := 55,
    confidence := .high }

/-- A concrete environment whose scanner reports the OpenAI key match for
every text. -/
def blockingStoreEnvExample : StoreEnv :=
  { matchesOf := fun _ => [openaiKeyMatchExample], now := 0,
    freshIds := fun _ => "id-0", embedSmall := fun _ => [],
    embedLarge := fun _ => [], detectedWorkspace := none,
    chunkSize := 1000, chunkOverlap := 200 }

/-- The single high-confidence match makes the scanner block. -/
theorem isSafeToStore_single_high :
    (isSafeToStore [openaiKeyMatchExample]).safe = false := by
  simp only [isSafeToStore, detectSecrets, sortByStart, List.mergeSort_singleton]
  decide

/-- Witness for C7 at the blocking environment and an empty store. -/
theorem memoryStoreHandler_blocks_secrets_witness :
    (memoryStoreHandler blockingStoreEnvExample "key=sk-aaa" emptyPartialPayload
      true []).1.success = false ∧
    (memoryStoreHandler blockingStoreEnvExample "key=sk-aaa" emptyPartialPayload
      true []).2.1 = [] :=
  ⟨(memoryStoreHandler_blocks_secrets blockingStoreEnvExample "key=sk-aaa"
      emptyPartialPayload true [] isSafeToStore_single_high).1,
    (memoryStoreHandler_blocks_secrets blockingStoreEnvExample "key=sk-aaa"
      emptyPartialPayload true [] isSafeToStore_single_high).2.2.2.1⟩

/-! ### Hybrid search with RRF (claim C6)

`hybridSearchWithRRF` fuses the dense search results and the text-index
scroll results (both produced by the external index and therefore
parameters here, as lists of point ids without duplicates) into RRF-scored
output. -/

/-- One reciprocal-rank term `1 / (k + rank)`. -/
def rrfTerm (k rank : Nat) : Rat := 1 / ((k + rank : Nat) : Rat)

/-- `rrfScores.get(id)` on the score `Map`. -/
def scoreMapGet (m : List (String × Rat)) (id : String) : Option Rat :=
  (m.find? (fun p => p.1 == id)).map Prod.snd

/-- `rrfScores.set(id, v)` on the score `Map`: update in place when the key
is present, else append in insertion order. -/
def scoreMapSet (m : List (String × Rat)) (id : String) (v : Rat) :
    List (String × Rat) :=
  if m.any (fun p => p.1 == id) then
    m.map (fun p => if p.1 == id then (id, v) else p)
  else
    m ++ [(id, v)]

/-- The `forEach` accumulation over one result list:
`rrfScores.set(id, (rrfScores.get(id) ?? 0) + 1 / (k + rank))` with
`rank = index + 1`. -/
def addRrfScoresFrom (k : Nat) : List (String × Rat) → List String → Nat →
    List (String × Rat)
  | m, [], _ => m
  | m, id :: rest, index =>
    addRrfScoresFrom k
      (scoreMapSet m id ((scoreMapGet m id).getD 0 + rrfTerm k (index + 1)))
      rest (index + 1)

/-- The score map after both passes: vector results first, then text
results. -/
def rrfEntries (vectorIds textIds : List String) : List (String × Rat) :=
  addRrfScoresFrom RRF_K (addRrfScoresFrom RRF_K [] vectorIds 0) textIds 0

/-- `hybridSearchWithRRF`, on the two id lists: accumulate RRF scores, sort
by combined score descending (JavaScript's stable sort), and slice
`offset .. offset + limit`.  Per-id payload bookkeeping is dropped: every
scored id has a payload in `pointsById` by construction. -/
def hybridSearchWithRRF (vectorIds textIds : List String) (limit offset : Nat) :
    List (String × Rat) :=
  (((rrfEntries vectorIds textIds).mergeSort
    (fun a b => decide (b.2 ≤ a.2))).drop offset).take limit

/-- The combined score the specification promises an id: one reciprocal
term per list containing it, at its 1-based rank there. -/
def rrfExpectedScore (vectorIds textIds : List String) (id : String) : Rat :=
  (if id ∈ vectorIds then rrfTerm RRF_K (vectorIds.indexOf id + 1) else 0) +
  (if id ∈ textIds then rrfTerm RRF_K (textIds.indexOf id + 1) else 0)

/-- Updating one key leaves every other key's score unchanged. -/
theorem scoreMapGet_map_update_ne (m : List (String × Rat)) (id : String)
    (v : Rat) (x : String) (hne : x ≠ id) :
    scoreMapGet (m.map (fun p => if p.1 == id then (id, v) else p)) x =
      scoreMapGet m x := by
  induction m with
  | nil => rfl
  | cons p rest IH =>
    simp only [List.map_cons, scoreMapGet, List.find?_cons]
    by_cases hp : p.1 = id
    · have hidx : (id == x) = false := by
        simp
        intro h
        exact hne h.symm
      have hpx : (p.1 == x) = false := by
        simp [hp]
        intro h
        exact hne h.symm
      simp only [if_pos (by simp [hp] : (p.1 == id) = true), hidx, hpx]
      simpa [scoreMapGet] using IH
    · simp only [if_neg (by simp [hp] : ¬ (p.1 == id) = true)]
      by_cases hpx : p.1 = x
      · simp [hpx]
      · simp only [show (p.1 == x) = false by simp [hpx]]
        simpa [scoreMapGet] using IH

/-- Updating a present key makes its score the new value. -/
theorem scoreMapGet_map_update_eq (m : List (String × Rat)) (id : String)
    (v : Rat) (hany : m.any (fun p => p.1 == id) = true) :
    scoreMapGet (m.map (fun p => if p.1 == id then (id, v) else p)) id =
      some v := by
  induction m with
  | nil => simp at hany
  | cons p rest IH =>
    simp only [List.map_cons, scoreMapGet, List.find?_cons]
    by_cases hp : p.1 = id
    · simp [hp]
    · simp only [if_neg (by simp [hp] : ¬ (p.1 == id) = true)]
      simp only [show (p.1 == id) = false by simp [hp]]
      have hrest : rest.any (fun p => p.1 == id) = true := by
        rcases List.any_eq_true.mp hany with ⟨q, hq, hqid⟩
        rcases List.mem_cons.mp hq with h | h
        · rw [h] at hqid
          simp at hqid
          exact absurd hqid hp
        · exact List.any_eq_true.mpr ⟨q, h, hqid⟩
      simpa [scoreMapGet] using IH hrest

/-- `Map.set` then `Map.get`. -/
theorem scoreMapGet_set (m : List (String × Rat)) (id : String) (v : Rat)
    (x : String) :
    scoreMapGet (scoreMapSet m id v) x =
      if x = id then some v else scoreMapGet m x := by
  unfold scoreMapSet
  by_cases hany : m.any (fun p => p.1 == id) = true
  · rw [if_pos hany]
    by_cases hx : x = id
    · subst hx
      rw [if_pos rfl]
      exact scoreMapGet_map_update_eq m x v hany
    · rw [if_neg hx]
      exact scoreMapGet_map_update_ne m id v x hx
  · rw [if_neg hany]
    unfold scoreMapGet
    rw [List.find?_append]
    have hnone : m.find? (fun p => p.1 == x) = none ∨ x ≠ id := by
      by_cases hx : x = id
      · subst hx
        left
        rw [List.find?_eq_none]
        intro p hp hpk
        apply hany
        exact List.any_eq_true.mpr ⟨p, hp, hpk⟩
      · right
        exact hx
    by_cases hx : x = id
    · subst hx
      rcases hnone with h | h
      · rw [h]
        simp
      · exact absurd rfl h
    · rw [if_neg hx]
      cases hf : m.find? (fun p => p.1 == x) with
      | some q => simp [Option.or]
      | none =>
        simp only [Option.or]
        rw [List.find?_cons]
        simp only [show ((id, v).1 == x) = false by simp; intro h; exact hx h.symm]
        rfl

/-- `Map.set` preserves the key list, appending the key only when new. -/
theorem scoreMapSet_keys (m : List (String × Rat)) (id : String) (v : Rat) :
    (scoreMapSet m id v).map Prod.fst =
      if m.any (fun p => p.1 == id) = true then m.map Prod.fst
      else m.map Prod.fst ++ [id] := by
  unfold scoreMapSet
  by_cases hany : m.any (fun p => p.1 == id) = true
  · rw [if_pos hany, if_pos hany, List.map_map]
    apply List.map_congr_left
    intro p _
    by_cases hpid : p.1 = id
    · simp [Function.comp, hpid]
    · simp [Function.comp, hpid]
  · rw [if_neg hany, if_neg hany, List.map_append]
    rfl

/-- `Map.set` keeps the keys without duplicates. -/
theorem scoreMapSet_keys_nodup (m : List (String × Rat)) (id : String) (v : Rat)
    (h : (m.map Prod.fst).Nodup) :
    ((scoreMapSet m id v).map Prod.fst).Nodup := by
  rw [scoreMapSet_keys]
  by_cases hany : m.any (fun p => p.1 == id) = true
  · rw [if_pos hany]
    exact h
  · rw [if_neg hany]
    have hnotin : id ∉ m.map Prod.fst := by
      intro hmem
      rcases List.mem_map.mp hmem with ⟨p, hp, hpk⟩
      exact hany (List.any_eq_true.mpr ⟨p, hp, by simp [hpk]⟩)
    rw [List.nodup_append]
    refine ⟨h, List.nodup_singleton id, ?_⟩
    intro a ha hb
    simp at hb
    subst hb
    exact hnotin ha

/-- The accumulation keeps keys without duplicates. -/
theorem addRrfScoresFrom_keys_nodup (k : Nat) (ids : List String) :
    ∀ (m : List (String × Rat)) (i : Nat), (m.map Prod.fst).Nodup →
      ((addRrfScoresFrom k m ids i).map Prod.fst).Nodup := by
  induction ids with
  | nil =>
    intro m i h
    exact h
  | cons id rest IH =>
    intro m i h
    exact IH _ _ (scoreMapSet_keys_nodup _ _ _ h)

/-- With duplicate-free keys, every entry of the map is what `get` of its
key yields. -/
theorem scoreMapGet_of_mem (m : List (String × Rat))
    (hnd : (m.map Prod.fst).Nodup) (p : String × Rat) (hp : p ∈ m) :
    scoreMapGet m p.1 = some p.2 := by
  induction m with
  | nil => simp at hp
  | cons q rest IH =>
    simp only [List.map_cons, List.nodup_cons] at hnd
    rcases List.mem_cons.mp hp with h | h
    · subst h
      simp [scoreMapGet, List.find?_cons]
    · have hq1 : (q.1 == p.1) = false := by
        simp only [beq_eq_false_iff_ne, ne_eq]
        intro heq
        apply hnd.1
        rw [heq]
        exact List.mem_map.mpr ⟨p, h, rfl⟩
      simp only [scoreMapGet, List.find?_cons, hq1]
      exact IH hnd.2 h

/-- Characterisation of one accumulation pass: every id of the (distinct)
result list gains exactly its reciprocal-rank term on top of its previous
score; all other scores are untouched. -/
theorem addRrfScoresFrom_get (k : Nat) (ids : List String) :
    ∀ (m : List (String × Rat)) (i : Nat) (x : String), ids.Nodup →
    scoreMapGet (addRrfScoresFrom k m ids i) x =
      (if x ∈ ids then
        some ((scoreMapGet m x).getD 0 + rrfTerm k (i + ids.indexOf x + 1))
      else scoreMapGet m x) := by
  induction ids with
  | nil =>
    intro m i x _
    simp [addRrfScoresFrom]
  | cons id rest IH =>
    intro m i x hnd
    simp only [addRrfScoresFrom]
    rw [IH _ (i + 1) x (List.nodup_cons.mp hnd).2]
    by_cases hxid : x = id
    · subst hxid
      have hnotin : x ∉ rest := (List.nodup_cons.mp hnd).1
      rw [if_neg hnotin, scoreMapGet_set, if_pos rfl,
        if_pos (List.mem_cons_self x rest), List.indexOf_cons_self]
    · by_cases hxrest : x ∈ rest
      · rw [if_pos hxrest, if_pos (List.mem_cons_of_mem id hxrest),
          scoreMapGet_set, if_neg hxid,
          List.indexOf_cons_ne rest (fun h => hxid h.symm)]
        have harith : i + 1 + rest.indexOf x + 1 = i + (rest.indexOf x).succ + 1 := by
          omega
        rw [harith]
      · have hnot : x ∉ id :: rest := by
          intro hmem
          rcases List.mem_cons.mp hmem with h | h
          · exact hxid h
          · exact hxrest h
        rw [if_neg hxrest, if_neg hnot, scoreMapGet_set, if_neg hxid]

/-- C6: every pair in the hybrid output carries exactly the RRF-fused
score — `1/(60 + r_dense) + 1/(60 + r_text)` for ids in both result lists,
the single corresponding term for ids in exactly one — the output is
ordered by combined score descending, and it is the
`offset .. offset + limit` slice of the full sorted fusion. -/
theorem hybridSearchWithRRF_rrf (vectorIds textIds : List String)
    (limit offset : Nat) (hv : vectorIds.Nodup) (ht : textIds.Nodup) :
    (∀ p ∈ hybridSearchWithRRF vectorIds textIds limit offset,
      p.2 = rrfExpectedScore vectorIds textIds p.1) ∧
    (hybridSearchWithRRF vectorIds textIds limit offset).Pairwise
      (fun a b => b.2 ≤ a.2) ∧
    hybridSearchWithRRF vectorIds textIds limit offset =
      (((rrfEntries vectorIds textIds).mergeSort
        (fun a b => decide (b.2 ≤ a.2))).drop offset).take limit := by
  refine ⟨?_, ?_, rfl⟩
  · intro p hp
    have hmem : p ∈ rrfEntries vectorIds textIds := by
      have h1 : p ∈ (rrfEntries vectorIds textIds).mergeSort
          (fun a b => decide (b.2 ≤ a.2)) := by
        apply List.Sublist.mem hp
        exact (List.take_sublist _ _).trans (List.drop_sublist _ _)
      exact List.mem_mergeSort.mp h1
    have hnd : ((rrfEntries vectorIds textIds).map Prod.fst).Nodup := by
      unfold rrfEntries
      apply addRrfScoresFrom_keys_nodup
      apply addRrfScoresFrom_keys_nodup
      simp
    have hget := scoreMapGet_of_mem _ hnd p hmem
    unfold rrfEntries at hget
    rw [addRrfScoresFrom_get RRF_K textIds _ 0 p.1 ht] at hget
    rw [addRrfScoresFrom_get RRF_K vectorIds [] 0 p.1 hv] at hget
    unfold rrfExpectedScore
    by_cases hpv : p.1 ∈ vectorIds <;> by_cases hpt : p.1 ∈ textIds <;>
      simp [hpv, hpt, scoreMapGet] at hget ⊢ <;> exact hget.symm
  · apply List.Pairwise.sublist
      ((List.take_sublist _ _).trans (List.drop_sublist _ _))
    have hsorted := @List.sorted_mergeSort (String × Rat)
      (fun a b => decide (b.2 ≤ a.2))
      (by intro a b c hab hbc; simp at hab hbc ⊢; exact le_trans hbc hab)
      (by intro a b; simpa using le_total b.2 a.2)
      (rrfEntries vectorIds textIds)
    exact hsorted.imp (by intro a b h; simpa using h)

/-- Witness for C6 at the spec's S4 scenario: dense results `[A, B]`, text
results `[B, A]`. -/
theorem hybridSearchWithRRF_rrf_witness :
    (hybridSearchWithRRF ["A", "B"] ["B", "A"] 10 0).Pairwise
      (fun a b => b.2 ≤ a.2) :=
  (hybridSearchWithRRF_rrf ["A", "B"] ["B", "A"] 10 0 (by decide) (by decide)).2.1
